import Mathlib

/-!
# Verification of the go-package-analyzer graph construction and layering engine

Shallow embedding of the core of `internal/analyzer` (graph builder, exclusion
matcher, cycle detector, layer assigner) together with proofs checking the
natural-language specification against it.

Strings are modelled as Lean `String`s (Go strings of package paths are ASCII,
so byte order and codepoint order agree); the wildcard matcher, which indexes
into strings, is modelled over `List Char`.  Go maps are modelled as
association lists (first-match lookup); Go's randomized map iteration order is
modelled by the order of the association list, so a universally quantified
statement over graphs covers every iteration order, and a counterexample at a
concrete list exhibits one realizable order.
-/

namespace PkgAnalyzer

/-! ## List/string utilities shared by the embedding -/

/-- Go `strings.Split(s, sep)` for a one-character separator, on char lists.
`splitOnChar c []` is `[[]]`, matching Go's `strings.Split("", sep) = [""]`. -/
def splitOnChar (c : Char) : List Char → List (List Char)
  | [] => [[]]
  | x :: xs =>
    if x = c then [] :: splitOnChar c xs
    else
      match splitOnChar c xs with
      | [] => [[x]]
      | r :: rs => (x :: r) :: rs

/-- Go `strings.Index(hay, needle)`: index of the first occurrence of `needle`
as a contiguous sublist of `hay`, or `none` where Go returns `-1`. -/
def indexOfSub (hay needle : List Char) : Option Nat :=
  if needle.isPrefixOf hay then some 0
  else
    match hay with
    | [] => none
    | _ :: xs => (indexOfSub xs needle).map (· + 1)

/-! ## Exclusion Matcher (`matchesWildcardPattern` / `wildcardMatch`) -/

/-- The body of the `for i, part := range parts` loop of `wildcardMatch`.
`nParts` is `len(parts)` of the full parts list, `i` the index of the head of
the remaining `parts`, `textIndex` the current scan position in `text`.
The checks against `pattern` mirror `pattern[0] != '*'` and
`strings.HasSuffix(pattern, "*")` (the pattern is nonempty at every call). -/
def wildcardLoop (text pattern : List Char) (nParts : Nat) :
    List (List Char) → Nat → Nat → Bool
  | [], _, _ => true
  | part :: rest, i, textIndex =>
    if part = [] then
      -- wildcard segment (between two *), skip it
      wildcardLoop text pattern nParts rest (i + 1) textIndex
    else
      match indexOfSub (text.drop textIndex) part with
      | none => false
      | some idx =>
        if i = 0 ∧ idx + textIndex ≠ 0 ∧ pattern.head? ≠ some '*' then false
        else if i = nParts - 1 ∧ (idx + textIndex) + part.length ≠ text.length
                ∧ pattern.getLast? ≠ some '*' then false
        else wildcardLoop text pattern nParts rest (i + 1) ((idx + textIndex) + part.length)

/-- `wildcardMatch` from the source: wildcard pattern matching where `*`
matches any sequence of characters. -/
def wildcardMatch (text pattern : List Char) : Bool :=
  let parts := splitOnChar '*' pattern
  -- Handle edge case: pattern is just "*"
  if parts = [[], []] then true
  else wildcardLoop text pattern parts.length parts 0 0

/-- `matchesWildcardPattern` from the source: empty pattern matches nothing;
a pattern without wildcards is an exact match; otherwise `wildcardMatch`. -/
def matchesWildcardPattern (path pattern : List Char) : Bool :=
  if pattern = [] then false
  else if !(pattern.contains '*') then path == pattern
  else wildcardMatch path pattern

/-- String-level wrapper, as the analyzer calls the matcher on path strings. -/
def matchesWildcardPatternStr (path pattern : String) : Bool :=
  matchesWildcardPattern path.toList pattern.toList

/-! ### The section 4.3 contract as claimed (declarative), and the amended
greedy characterization -/

/-- `seg` occurs in `text` at position `j`. -/
def occursAt (text seg : List Char) (j : Nat) : Bool :=
  seg.isPrefixOf (text.drop j)

/-- Declarative reading of the claimed contract: all of `segs` occur in `text`
in order at or after `pos` (any occurrence may be chosen) and, when
`anchorEnd`, the chosen occurrence of the last segment ends at the text's
end. -/
def segsMatchAt (text : List Char) (anchorEnd : Bool) :
    List (List Char) → Nat → Bool
  | [], _ => true
  | seg :: rest, pos =>
    (List.range (text.length + 1)).any fun j =>
      decide (pos ≤ j) && occursAt text seg j
        && (if rest = [] then !anchorEnd || (j + seg.length == text.length) else true)
        && segsMatchAt text anchorEnd rest (j + seg.length)

/-- The claimed section 4.3 contract, word for word: empty pattern matches
nothing; no wildcard means exact equality; otherwise every literal segment
between wildcards occurs in the path in order, the first anchored at position
0 unless the pattern starts with `*`, the last anchored at the path's end
unless the pattern ends with `*`, consecutive wildcards acting as one. -/
def specWildcardContract (path pattern : List Char) : Bool :=
  if pattern = [] then false
  else if !(pattern.contains '*') then path == pattern
  else
    let segs := (splitOnChar '*' pattern).filter (· ≠ [])
    let aStart := !(pattern.head? == some '*')
    let aEnd := !(pattern.getLast? == some '*')
    match segs with
    | [] => true
    | seg :: rest =>
      if aStart then
        occursAt path seg 0
          && (if rest = [] then !aEnd || (seg.length == path.length) else true)
          && segsMatchAt path aEnd rest seg.length
      else segsMatchAt path aEnd (seg :: rest) 0

/-- Amended (greedy) semantics for the non-first segments: each segment is
located at its first occurrence at or after the previous segment's match, and
when `anchorEnd` the first occurrence of the last segment must end exactly at
the path's end. -/
def greedySegs (path : List Char) (anchorEnd : Bool) :
    List (List Char) → Nat → Bool
  | [], _ => true
  | seg :: rest, pos =>
    match indexOfSub (path.drop pos) seg with
    | none => false
    | some k =>
      if rest = [] ∧ anchorEnd = true ∧ (k + pos) + seg.length ≠ path.length then false
      else greedySegs path anchorEnd rest ((k + pos) + seg.length)

/-- The amended contract: like the claimed one, except that every segment is
located at its first occurrence after the previous segment (so the
end-anchor test applies to that first occurrence, not to an arbitrarily
chosen one), and the first segment must sit at position 0 when the pattern
does not start with `*`. -/
def specGreedyWildcard (path pattern : List Char) : Bool :=
  if pattern = [] then false
  else if !(pattern.contains '*') then path == pattern
  else
    let segs := (splitOnChar '*' pattern).filter (· ≠ [])
    match segs with
    | [] => true
    | seg :: rest =>
      match indexOfSub path seg with
      | none => false
      | some j =>
        if pattern.head? ≠ some '*' ∧ j ≠ 0 then false
        else if rest = [] ∧ pattern.getLast? ≠ some '*' ∧ j + seg.length ≠ path.length then
          false
        else greedySegs path (!(pattern.getLast? == some '*')) rest (j + seg.length)

/-! ## Data model

`PackageInfo` and `DependencyGraph` from the source.  The mutable `Layer`
field of `PackageInfo` is modelled by the layer map that the Layer Assigner
threads through its passes (the Go code keeps the two in sync and reads only
the map); `DependencyGraph.layers` is filled in by `calculateLayers`. -/

structure PackageInfo where
  name : String
  path : String
  dependencies : List String
  fileCount : Nat
deriving Repr, DecidableEq

structure DependencyGraph where
  entryPackage : String
  packages : List (String × PackageInfo)
  layers : List (List String)
  moduleName : String
deriving Repr, DecidableEq

/-- The keys of the `Packages` map. -/
def keysOf (g : DependencyGraph) : List String := g.packages.map (·.1)

/-- Byte-wise (= codepoint-wise) lexicographic order on strings, as Go's
`sort.Strings` uses. -/
def charListLe : List Char → List Char → Bool
  | [], _ => true
  | _ :: _, [] => false
  | a :: as, b :: bs => if a < b then true else if b < a then false else charListLe as bs

def insertSorted (x : String) : List String → List String
  | [] => [x]
  | y :: ys => if charListLe x.toList y.toList then x :: y :: ys else y :: insertSorted x ys

/-- `sort.Strings` (insertion sort; Go's sort is unstable but over the
distinct keys sorted here order of equals never arises). -/
def sortStrings : List String → List String
  | [] => []
  | x :: xs => insertSorted x (sortStrings xs)

/-! ## Cycle Detector (`detectCircularDependencies` / `findAllCycles`) -/

/-- Ephemeral DFS state: the global visited set, the recursion stack
(`recStack`), and the cycles accumulated so far. -/
structure CycState where
  visited : List String
  recStack : List String
  cycles : List (List String)
deriving Repr, DecidableEq

/-- `extractCycleFromPath`: the cycle is the suffix of `path` from the first
occurrence of `dep` (Go scans for `cycleStart` and copies `path[cycleStart:]`);
nothing is appended when `dep` does not occur. -/
def extractCycleFromPath (dep : String) (path : List String)
    (cycles : List (List String)) : List (List String) :=
  if dep ∈ path then cycles ++ [path.dropWhile (· ≠ dep)] else cycles

/-- `processDependenciesForCycles`: skip dependencies that are not keys of
`Packages`; recurse (via `dfs`, instantiated with `dfsForCycles` at the next
smaller fuel) on unvisited ones; extract a cycle when a dependency is on the
recursion stack. -/
def processDependenciesForCycles (g : DependencyGraph)
    (dfs : String → List String → CycState → CycState) :
    List String → List String → CycState → CycState
  | [], _, st => st
  | dep :: deps, path, st =>
    processDependenciesForCycles g dfs deps path
      (if (g.packages.lookup dep).isNone then st
       else if dep ∉ st.visited then dfs dep path st
       else if dep ∈ st.recStack then
         { st with cycles := extractCycleFromPath dep path st.cycles }
       else st)

/-- `dfsForCycles`: mark the node visited and on the recursion stack, extend
the path, process its dependencies if it is a key of `Packages`, then take the
node off the recursion stack.  The `fuel` argument only bounds the recursion
depth for Lean's termination checker; `findAllCycles` passes enough fuel that
it is never exhausted (each nested call is on a fresh unvisited key). -/
def dfsForCycles (g : DependencyGraph) : Nat → String → List String → CycState → CycState
  | 0, _, _, st => st
  | fuel + 1, node, path, st =>
    let st1 : CycState :=
      { st with visited := node :: st.visited, recStack := node :: st.recStack }
    let st2 :=
      match g.packages.lookup node with
      | some pkg =>
        processDependenciesForCycles g (fun dep p s => dfsForCycles g fuel dep p s)
          pkg.dependencies (path ++ [node]) st1
      | none => st1
    { st2 with recStack := st2.recStack.erase node }

/-- `findAllCycles`: DFS from every unvisited node, in map iteration order
(modelled by the association-list order). -/
def findAllCycles (g : DependencyGraph) : List (List String) :=
  ((g.packages.map (·.1)).foldl
    (fun st pkgPath =>
      if pkgPath ∉ st.visited then
        dfsForCycles g (g.packages.length + 1) pkgPath [] st
      else st)
    ⟨[], [], []⟩).cycles

/-- Go iterates `cycle[i] → cycle[(i+1) % len]`: consecutive pairs plus the
wrap-around pair. -/
def wrapPairs : List String → List (String × String)
  | [] => []
  | x :: xs => (x :: xs).zip (xs ++ [x])

/-- `detectCircularDependencies`: mark every consecutive (wrapping) pair of
every found cycle; the Go nested map `circularEdges[from][to]` is modelled as
the list of marked pairs, queried by membership. -/
def detectCircularDependencies (g : DependencyGraph) : List (String × String) :=
  (findAllCycles g).foldl (fun acc cycle => acc ++ wrapPairs cycle) []

/-! ## Layer Assigner -/

/-- Additional iterations to ensure layer convergence. -/
def maxIterationsPadding : Nat := 5

/-- `buildReverseDependencyMap`: for every non-circular edge `p → dep` with
`dep` a key of `Packages`, record `p` as a dependent of `dep`.  The Go map is
modelled as a function; the list for `dep` is in package iteration order. -/
def buildReverseDependencyMap (g : DependencyGraph)
    (circularEdges : List (String × String)) : String → List String :=
  fun dep =>
    (g.packages.filter
      (fun pr => dep ∈ pr.2.dependencies ∧ (g.packages.lookup dep).isSome
        ∧ (pr.1, dep) ∉ circularEdges)).map (·.1)

/-- `initializeLayerMap` from the source: all packages start unassigned. -/
def initLayerMap (g : DependencyGraph) : List (String × Int) :=
  g.packages.map (fun pr => (pr.1, (-1 : Int)))

/-- Update of the Go `layers` map (`layers[pkgPath] = newLayer`). -/
def setL : List (String × Int) → String → Int → List (String × Int)
  | [], k, v => [(k, v)]
  | (k2, v2) :: rest, k, v =>
    if k2 = k then (k2, v) :: rest else (k2, v2) :: setL rest k v

/-- `calculateOptimalLayer`: the source's loop over `reverseDeps[pkgPath]`
computes `hasDependents` (some dependent is a key), `hasCalculatedDependents`
(some such dependent has layer ≥ 0) and `maxDependentLayer` (the maximum of
those layers, starting from -1); then the three-way branch. -/
def calculateOptimalLayer (g : DependencyGraph) (pkgPath : String)
    (layers : List (String × Int)) (reverseDeps : String → List String) : Int :=
  let ds := (reverseDeps pkgPath).filter (fun d => (g.packages.lookup d).isSome)
  let cs := ds.filterMap (fun d =>
    match layers.lookup d with
    | some dl => if dl ≥ 0 then some dl else none
    | none => none)
  if ds ≠ [] ∧ cs ≠ [] then (cs.foldl max (-1)) + 1
  else if ds ≠ [] then
    match layers.lookup pkgPath with
    | some currentLayer => if currentLayer ≥ 0 then currentLayer else 1
    | none => 1
  else 0

/-- `iterateLayerCalculation`: one pass over all packages in sorted order;
returns the updated map and whether anything changed.  (A missing key reads
as Go's zero value 0; keys are never missing in the pipeline.) -/
def iterateLayerCalculation (g : DependencyGraph) (layers : List (String × Int))
    (reverseDeps : String → List String) : List (String × Int) × Bool :=
  (sortStrings (g.packages.map (·.1))).foldl
    (fun acc pkgPath =>
      let newLayer := calculateOptimalLayer g pkgPath acc.1 reverseDeps
      if (acc.1.lookup pkgPath).getD 0 ≠ newLayer then (setL acc.1 pkgPath newLayer, true)
      else acc)
    (layers, false)

/-- The `for range maxIterations` loop of `calculateLayers`, stopping early
when a pass changes nothing. -/
def calcLayersLoop (g : DependencyGraph) (reverseDeps : String → List String) :
    Nat → List (String × Int) → List (String × Int)
  | 0, layers => layers
  | n + 1, layers =>
    let r := iterateLayerCalculation g layers reverseDeps
    if r.2 then calcLayersLoop g reverseDeps n r.1 else r.1

/-- The final layer map produced by `calculateLayers` before bucketing. -/
def layerAssignment (g : DependencyGraph) : List (String × Int) :=
  calcLayersLoop g (buildReverseDependencyMap g (detectCircularDependencies g))
    (g.packages.length + maxIterationsPadding) (initLayerMap g)

/-- `organizePackagesByLayer`: bucket `[0..maxLayer]`, each bucket the sorted
packages with that layer (only keys of `Packages`, as in the source's nil
check; a negative layer would make Go panic and never occurs). -/
def organizePackagesByLayer (g : DependencyGraph)
    (layers : List (String × Int)) : List (List String) :=
  let maxLayer := layers.foldl (fun m pr => if pr.2 > m then pr.2 else m) 0
  (List.range (maxLayer.toNat + 1)).map (fun ℓ =>
    sortStrings ((layers.filter
      (fun pr => pr.2 = (ℓ : Int) ∧ (g.packages.lookup pr.1).isSome)).map (·.1)))

/-- `calculateLayers`: detect circular edges, build the reverse map, iterate
to a fixed point (bounded), then organize the buckets. -/
def calculateLayers (g : DependencyGraph) : DependencyGraph :=
  { g with layers := organizePackagesByLayer g (layerAssignment g) }

/-! ## Graph Builder (`analyzePackage` / `AnalyzeFromFile`)

The filesystem and the Import Extractor (both external collaborators) are
abstracted into `fs`, a finite map from an internal package path to the
result of `parsePackageImports` on its directory: the deduplicated and
sorted import list and the file count.  A path missing from `fs` is one whose
directory cannot be read (`parsePackageImports` fails).  Module resolution
(`findModule` / `getPackageFromFile`) is abstracted into the resolved module
name and the entry package's module-relative directory path. -/

structure AnalyzerConfig where
  moduleName : String
  excludeDirs : List String
deriving Repr, DecidableEq

/-- Go `strings.HasPrefix s pre`. -/
def strHasPre (s pre : String) : Bool := pre.toList.isPrefixOf s.toList

/-- Go `strings.TrimPrefix s pre`. -/
def strTrimPre (s pre : String) : String :=
  if strHasPre s pre then String.mk (s.toList.drop pre.toList.length) else s

/-- `isInternalPackage`: the path starts with the module name. -/
def isInternalPackage (cfg : AnalyzerConfig) (pkgPath : String) : Bool :=
  strHasPre pkgPath cfg.moduleName

/-- `isExcludedPackage`: only internal packages are checked; the module-name
prefix and a leading `/` are stripped, then any pattern may match. -/
def isExcludedPackage (cfg : AnalyzerConfig) (pkgPath : String) : Bool :=
  if !(isInternalPackage cfg pkgPath) then false
  else
    let relPath := strTrimPre (strTrimPre pkgPath cfg.moduleName) "/"
    cfg.excludeDirs.any (fun pat => matchesWildcardPatternStr relPath pat)

/-- `getPackageName`: the last `/`-separated component. -/
def getPackageName (pkgPath : String) : String :=
  String.mk ((splitOnChar '/' pkgPath.toList).getLastD [])

/-- Visitation state of the recursive walk plus the `Packages` map being
populated (in insertion order). -/
structure WalkState where
  visited : List String
  packages : List (String × PackageInfo)
deriving Repr, DecidableEq

/-- `analyzePackage`.  Returns the updated state and whether THIS call failed
(`true` = error).  A failure of a recursive call on a dependency is logged
and discarded, exactly as in the source.  `fuel` bounds the recursion depth
for Lean (each productive nested call visits a fresh package, so
`analyzeFromFile` passes enough fuel that it is never exhausted). -/
def analyzePackage (cfg : AnalyzerConfig) (fs : List (String × (List String × Nat)))
    (excludeExternal : Bool) : Nat → String → WalkState → WalkState × Bool
  | 0, _, st => (st, false)
  | fuel + 1, pkgPath, st =>
    if pkgPath ∈ st.visited then (st, false)
    else
      let st1 : WalkState := { st with visited := pkgPath :: st.visited }
      if isExcludedPackage cfg pkgPath then (st1, false)
      else if excludeExternal ∧ ¬ isInternalPackage cfg pkgPath then (st1, false)
      else if ¬ isInternalPackage cfg pkgPath then
        -- external package: leaf node, no dependencies analyzed, no files counted
        ({ st1 with packages :=
            st1.packages ++ [(pkgPath, ⟨getPackageName pkgPath, pkgPath, [], 0⟩)] }, false)
      else
        match fs.lookup pkgPath with
        | none => (st1, true)  -- parsing imports for the package failed
        | some (deps0, fileCount) =>
          let dependencies :=
            if excludeExternal then
              sortStrings (deps0.filter (fun dep => isInternalPackage cfg dep))
            else deps0
          let st2 : WalkState := { st1 with packages :=
            st1.packages ++ [(pkgPath, ⟨getPackageName pkgPath, pkgPath, dependencies, fileCount⟩)] }
          (dependencies.foldl
            (fun acc dep => (analyzePackage cfg fs excludeExternal fuel dep acc).1)
            st2, false)

/-- `getPackageFromFile`: the module-root directory maps to the bare module
name, subdirectories append their relative path. -/
def entryPkgOf (cfg : AnalyzerConfig) (rel : String) : String :=
  if rel = "" then cfg.moduleName else cfg.moduleName ++ "/" ++ rel

/-- `AnalyzeFromFile`.  `entryRel = none` models the entry file failing to
resolve to a package path (inaccessible entry directory); `some rel` is the
module-relative directory of the entry file, `""` for the module root.
Returns `none` exactly on the errors the source propagates. -/
def analyzeFromFile (cfg : AnalyzerConfig) (fs : List (String × (List String × Nat)))
    (entryRel : Option String) (excludeExternal : Bool) (fuel : Nat) :
    Option DependencyGraph :=
  match entryRel with
  | none => none
  | some rel =>
    let r := analyzePackage cfg fs excludeExternal fuel (entryPkgOf cfg rel) ⟨[], []⟩
    if r.2 then none
    else some (calculateLayers ⟨entryPkgOf cfg rel, r.1.packages, [], cfg.moduleName⟩)

/-! ## Cycle and edge predicates used by the claims -/

/-- `b` is listed in `a`'s dependencies and both are keys of `Packages`. -/
def edgeB (g : DependencyGraph) (a b : String) : Bool :=
  match g.packages.lookup a with
  | some info => decide (b ∈ info.dependencies) && (g.packages.lookup b).isSome
  | none => false

/-- `c` is a directed cycle of the graph: nonempty, and every consecutive
pair, wrapping around, is an edge. -/
def isCycleListB (g : DependencyGraph) (c : List String) : Bool :=
  decide (c ≠ []) && (wrapPairs c).all (fun pr => edgeB g pr.1 pr.2)

/-- The directed edge `(a, b)` participates in at least one cycle. -/
def onCycleEdge (g : DependencyGraph) (a b : String) : Prop :=
  ∃ c, isCycleListB g c = true ∧ (a, b) ∈ wrapPairs c

/-- The same graph with every dependency list restricted to the keys of
`Packages` (used to state that the pipeline skips dangling edges). -/
def restrictDeps (g : DependencyGraph) : DependencyGraph :=
  { g with packages := g.packages.map (fun pr =>
      (pr.1, { pr.2 with dependencies :=
        pr.2.dependencies.filter (fun d => (g.packages.lookup d).isSome) })) }

/-! ## Spec-side Layer Assigner (written from the words of section 4.5)

Used to state claim C1 as a refinement: the implementation equals the
procedure the claim describes. -/

/-- The claimed per-package rule: a package with no recorded (non-circular)
dependents gets layer 0; with at least one dependent whose layer is already
computed (≥ 0) it gets max(such dependent layers) + 1; otherwise it keeps its
current layer if ≥ 0 and else gets provisional layer 1. -/
def specAssignLayer (pkgPath : String) (layers : List (String × Int))
    (dependents : List String) : Int :=
  if dependents = [] then 0
  else
    match dependents.filterMap (fun d =>
      match layers.lookup d with
      | some dl => if dl ≥ 0 then some dl else none
      | none => none) with
    | [] =>
      match layers.lookup pkgPath with
      | some currentLayer => if currentLayer ≥ 0 then currentLayer else 1
      | none => 1
    | x :: xs => (xs.foldl max x) + 1

/-- One claimed pass: every package in lexicographically sorted order, each
assigned by `specAssignLayer` against the in-progress map. -/
def specLayerPass (g : DependencyGraph) (reverseDeps : String → List String)
    (layers : List (String × Int)) : List (String × Int) × Bool :=
  (sortStrings (keysOf g)).foldl
    (fun acc pkgPath =>
      let newLayer := specAssignLayer pkgPath acc.1 (reverseDeps pkgPath)
      if (acc.1.lookup pkgPath).getD 0 ≠ newLayer then (setL acc.1 pkgPath newLayer, true)
      else acc)
    (layers, false)

/-- Passes repeat until a pass changes nothing or the bound is exhausted. -/
def specLayerLoop (g : DependencyGraph) (reverseDeps : String → List String) :
    Nat → List (String × Int) → List (String × Int)
  | 0, layers => layers
  | n + 1, layers =>
    let r := specLayerPass g reverseDeps layers
    if r.2 then specLayerLoop g reverseDeps n r.1 else r.1

/-- The claimed fixed-point computation: number of passes bounded by
(number of packages + 5), starting from all-unassigned. -/
def specLayerAssignment (g : DependencyGraph) : List (String × Int) :=
  specLayerLoop g (buildReverseDependencyMap g (detectCircularDependencies g))
    (g.packages.length + 5) (initLayerMap g)

/-- Consecutive pairs of a path are all edges (no wrap-around). -/
def chainOKB (g : DependencyGraph) : List String → Bool
  | [] => true
  | [_] => true
  | a :: b :: rest => edgeB g a b && chainOKB g (b :: rest)

/-! ## Ghost-instrumented cycle DFS

The DFS state is extended with the order in which nodes finish (`fin`, a
ghost field): forgetting `fin` recovers `dfsForCycles` exactly.  The finish
order supports the ranking argument behind the layer monotonicity theorem. -/

structure CycStateG where
  visited : List String
  recStack : List String
  cycles : List (List String)
  fin : List String
deriving Repr, DecidableEq

/-- Forget the ghost field. -/
def CycStateG.toCyc (st : CycStateG) : CycState :=
  ⟨st.visited, st.recStack, st.cycles⟩

/-- `processDependenciesForCycles`, on the instrumented state. -/
def processDepsG (g : DependencyGraph)
    (dfs : String → List String → CycStateG → CycStateG) :
    List String → List String → CycStateG → CycStateG
  | [], _, st => st
  | dep :: deps, path, st =>
    processDepsG g dfs deps path
      (if (g.packages.lookup dep).isNone then st
       else if dep ∉ st.visited then dfs dep path st
       else if dep ∈ st.recStack then
         { st with cycles := extractCycleFromPath dep path st.cycles }
       else st)

/-- `dfsForCycles`, on the instrumented state: the node is appended to `fin`
at the moment it leaves the recursion stack. -/
def dfsG (g : DependencyGraph) : Nat → String → List String → CycStateG → CycStateG
  | 0, _, _, st => st
  | fuel + 1, node, path, st =>
    let st1 : CycStateG :=
      { st with visited := node :: st.visited, recStack := node :: st.recStack }
    let st2 :=
      match g.packages.lookup node with
      | some pkg =>
        processDepsG g (fun dep p s => dfsG g fuel dep p s)
          pkg.dependencies (path ++ [node]) st1
      | none => st1
    { st2 with recStack := st2.recStack.erase node, fin := st2.fin ++ [node] }

/-- `findAllCycles`, instrumented, returning the whole final state. -/
def findAllCyclesG (g : DependencyGraph) : CycStateG :=
  (keysOf g).foldl
    (fun st pkgPath =>
      if pkgPath ∉ st.visited then
        dfsG g (g.packages.length + 1) pkgPath [] st
      else st)
    ⟨[], [], [], []⟩

/-- Position of the first occurrence of `x` in `l` (`l.length` if absent). -/
def posIn : List String → String → Nat
  | [], _ => 0
  | y :: ys, x => if y = x then 0 else posIn ys x + 1

/-- Number of keys of `g` not yet visited (the DFS termination measure). -/
def unvisitedCount (g : DependencyGraph) (st : CycStateG) : Nat :=
  ((keysOf g).filter (fun x => decide (x ∉ st.visited))).length

/-- The pair `(a, b)` is marked by some accumulated cycle. -/
def markedIn (cycles : List (List String)) (a b : String) : Prop :=
  ∃ c ∈ cycles, (a, b) ∈ wrapPairs c

/-- Invariants of the instrumented DFS state.  `finOK` is the key property:
every edge out of a finished node is either marked as circular or points to
a node that finished strictly earlier. -/
structure GInv (g : DependencyGraph) (st : CycStateG) : Prop where
  vk : ∀ x ∈ st.visited, x ∈ keysOf g
  part : ∀ x, x ∈ st.visited ↔ (x ∈ st.fin ∨ x ∈ st.recStack)
  disj : ∀ x ∈ st.fin, x ∉ st.recStack
  nodupF : st.fin.Nodup
  finOK : ∀ u v, u ∈ st.fin → edgeB g u v = true →
    markedIn st.cycles u v ∨ (v ∈ st.fin ∧ posIn st.fin v < posIn st.fin u)

/-- How the state may grow across one DFS call: visited grows, the finish
list and the cycle list grow by appending, the recursion stack is restored. -/
structure GStep (st st2 : CycStateG) : Prop where
  vis : ∀ x ∈ st.visited, x ∈ st2.visited
  finpre : ∃ t, st2.fin = st.fin ++ t
  cycpre : ∃ t, st2.cycles = st.cycles ++ t
  rs : st2.recStack = st.recStack

/-- Iterating `foldM`-style layer passes (reasoning form of the pass loop:
the update is an unconditional `setL`, which under the domain invariant
produces the same map as the conditional update of the source). -/
def foldMPass (g : DependencyGraph) (reverseDeps : String → List String)
    (ks : List String) (m : List (String × Int)) : List (String × Int) :=
  ks.foldl (fun m2 p => setL m2 p (calculateOptimalLayer g p m2 reverseDeps)) m

/-- `n` iterated passes. -/
def iterPass (g : DependencyGraph) (reverseDeps : String → List String)
    (ks : List String) : Nat → List (String × Int) → List (String × Int)
  | 0, m => m
  | n + 1, m => foldMPass g reverseDeps ks (iterPass g reverseDeps ks n m)

/-- The reverse-dependency map the pipeline actually uses. -/
def theRev (g : DependencyGraph) : String → List String :=
  buildReverseDependencyMap g (detectCircularDependencies g)

/-- The sorted key order of one layer pass. -/
def theKs (g : DependencyGraph) : List String := sortStrings (keysOf g)

/-- Rank of a node in the DFS finish order `F`: later-finished nodes have
smaller rank. -/
def muF (F : List String) (x : String) : Nat := F.length - 1 - posIn F x

/-! ## Properties of `splitOnChar` -/

theorem splitOnChar_ne_nil (c : Char) (p : List Char) : splitOnChar c p ≠ [] := by
  induction p with
  | nil => simp [splitOnChar]
  | cons x xs ih =>
    by_cases hx : x = c
    · simp [splitOnChar, hx]
    · simp only [splitOnChar, if_neg hx]
      cases h : splitOnChar c xs <;> simp

theorem splitOnChar_length (c : Char) (p : List Char) :
    (splitOnChar c p).length = p.count c + 1 := by
  induction p with
  | nil => simp [splitOnChar]
  | cons x xs ih =>
    by_cases hx : x = c
    · subst hx
      simp [splitOnChar, ih, List.count_cons]
    · simp only [splitOnChar, if_neg hx]
      cases h : splitOnChar c xs with
      | nil => exact absurd h (splitOnChar_ne_nil c xs)
      | cons r rs =>
        rw [h] at ih
        simp only [List.length_cons] at ih ⊢
        have : (x :: xs).count c = xs.count c := by
          simp [List.count_cons, hx, Ne.symm hx]
        omega

theorem splitOnChar_chars (c : Char) (p : List Char) :
    ∀ part ∈ splitOnChar c p, c ∉ part := by
  induction p with
  | nil => simp [splitOnChar]
  | cons x xs ih =>
    by_cases hx : x = c
    · intro part hp
      simp only [splitOnChar, if_pos hx, List.mem_cons] at hp
      rcases hp with h | h
      · subst h; simp
      · exact ih part h
    · intro part hp
      simp only [splitOnChar, if_neg hx] at hp
      cases h : splitOnChar c xs with
      | nil => exact absurd h (splitOnChar_ne_nil c xs)
      | cons r rs =>
        rw [h] at hp
        rcases List.mem_cons.mp hp with h1 | h2
        · subst h1
          intro hc
          rcases List.mem_cons.mp hc with h3 | h4
          · exact hx h3.symm
          · exact ih r (h ▸ List.mem_cons_self r rs) h4
        · exact ih part (h ▸ List.mem_cons_of_mem r h2)

theorem splitOnChar_head_empty (c : Char) (p : List Char) (rest : List (List Char))
    (h : splitOnChar c p = [] :: rest) : p = [] ∨ p.head? = some c := by
  cases p with
  | nil => exact Or.inl rfl
  | cons x xs =>
    by_cases hx : x = c
    · right; simp [hx]
    · exfalso
      simp only [splitOnChar, if_neg hx] at h
      cases hsp : splitOnChar c xs with
      | nil => rw [hsp] at h; simp at h
      | cons r rs => rw [hsp] at h; simp at h

theorem splitOnChar_head_cons (c y : Char) (r : List Char) (p : List Char)
    (rest : List (List Char)) (h : splitOnChar c p = (y :: r) :: rest) :
    p.head? = some y := by
  cases p with
  | nil => simp [splitOnChar] at h
  | cons x xs =>
    by_cases hx : x = c
    · simp only [splitOnChar, if_pos hx] at h
      simp at h
    · simp only [splitOnChar, if_neg hx] at h
      cases hsp : splitOnChar c xs with
      | nil => rw [hsp] at h; simp at h; simp [h.1.1]
      | cons r2 rs2 => rw [hsp] at h; simp at h; simp [h.1.1]

theorem getLast?_cons_ne_nil {α : Type} (x : α) {l : List α} (h : l ≠ []) :
    (x :: l).getLast? = l.getLast? := by
  cases l with
  | nil => exact absurd rfl h
  | cons y ys => exact List.getLast?_cons_cons

theorem getLast?_some_mem {α : Type} {l : List α} {a : α}
    (h : l.getLast? = some a) : a ∈ l := by
  cases l with
  | nil => simp at h
  | cons x xs =>
    rw [List.getLast?_eq_getLast_of_ne_nil (List.cons_ne_nil x xs)] at h
    have := Option.some.inj h
    rw [← this]
    exact List.getLast_mem (List.cons_ne_nil x xs)

theorem splitOnChar_getLast (c : Char) (p : List Char) (hp : p ≠ []) :
    ((splitOnChar c p).getLast? = some [] ↔ p.getLast? = some c) := by
  induction p with
  | nil => exact absurd rfl hp
  | cons x xs ih =>
    by_cases hxs : xs = []
    · subst hxs
      by_cases hx : x = c
      · subst hx; simp [splitOnChar]
      · simp [splitOnChar, hx]
    · have ihx := ih hxs
      rw [getLast?_cons_ne_nil x hxs]
      by_cases hx : x = c
      · simp only [splitOnChar, if_pos hx]
        obtain ⟨r, rs, hsp⟩ : ∃ r rs, splitOnChar c xs = r :: rs := by
          cases hq : splitOnChar c xs with
          | nil => exact absurd hq (splitOnChar_ne_nil c xs)
          | cons a b => exact ⟨a, b, rfl⟩
        rw [hsp] at ihx ⊢
        rw [List.getLast?_cons_cons]
        exact ihx
      · simp only [splitOnChar, if_neg hx]
        obtain ⟨r, rs, hsp⟩ : ∃ r rs, splitOnChar c xs = r :: rs := by
          cases hq : splitOnChar c xs with
          | nil => exact absurd hq (splitOnChar_ne_nil c xs)
          | cons a b => exact ⟨a, b, rfl⟩
        rw [hsp] at ihx
        rw [hsp]
        cases rs with
        | nil =>
          have hcount : xs.count c = 0 := by
            have hlen := splitOnChar_length c xs
            rw [hsp] at hlen
            simp at hlen
            omega
          have hnot : c ∉ xs := by
            intro hmem
            have := List.count_pos_iff.mpr hmem
            omega
          constructor
          · intro habs; simp at habs
          · intro hlast
            exact absurd (getLast?_some_mem hlast) hnot
        | cons r2 rs2 =>
          rw [List.getLast?_cons_cons]
          rw [List.getLast?_cons_cons] at ihx
          exact ihx

theorem filter_nil_all_nil {rest2 : List (List Char)} (h2 : rest2 ≠ [])
    (hf : rest2.filter (· ≠ []) = []) : rest2.getLast? = some [] := by
  obtain ⟨l, hl⟩ : ∃ l, rest2.getLast? = some l := by
    cases hq : rest2 with
    | nil => exact absurd hq h2
    | cons a b =>
      rw [List.getLast?_eq_getLast_of_ne_nil (hq ▸ h2)]
      exact ⟨_, rfl⟩
  have hmem : l ∈ rest2 := getLast?_some_mem hl
  have : ¬ (l ≠ []) := by
    intro hne
    have : l ∈ rest2.filter (· ≠ []) := by
      rw [List.mem_filter]
      exact ⟨hmem, by simpa using hne⟩
    rw [hf] at this
    simp at this
  rw [hl]
  simp at this
  rw [this]

theorem wildcardLoop_cons_empty (text pattern : List Char) (nParts : Nat)
    (rest : List (List Char)) (i tI : Nat) :
    wildcardLoop text pattern nParts ([] :: rest) i tI
      = wildcardLoop text pattern nParts rest (i + 1) tI := by
  rw [wildcardLoop]
  exact if_pos rfl

theorem wildcardLoop_cons (text pattern : List Char) (nParts : Nat)
    (part : List Char) (rest : List (List Char)) (i tI : Nat) (h : part ≠ []) :
    wildcardLoop text pattern nParts (part :: rest) i tI
      = match indexOfSub (text.drop tI) part with
        | none => false
        | some idx =>
          if i = 0 ∧ idx + tI ≠ 0 ∧ pattern.head? ≠ some '*' then false
          else if i = nParts - 1 ∧ (idx + tI) + part.length ≠ text.length
                  ∧ pattern.getLast? ≠ some '*' then false
          else wildcardLoop text pattern nParts rest (i + 1) ((idx + tI) + part.length) := by
  rw [wildcardLoop]
  exact if_neg h

theorem wildcardLoop_eq_greedySegs (text pattern : List Char)
    (hp : pattern ≠ []) (nParts : Nat)
    (rest : List (List Char)) (i tI : Nat) (hi : 1 ≤ i)
    (hn : i + rest.length = nParts)
    (hsuf : rest ≠ [] → rest.getLast? = (splitOnChar '*' pattern).getLast?) :
    wildcardLoop text pattern nParts rest i tI
      = greedySegs text (!(pattern.getLast? == some '*')) (rest.filter (· ≠ [])) tI := by
  induction rest generalizing i tI with
  | nil => simp [wildcardLoop, greedySegs]
  | cons seg rest2 ih =>
    have hsuf2 : rest2 ≠ [] → rest2.getLast? = (splitOnChar '*' pattern).getLast? := by
      intro h2
      rw [← getLast?_cons_ne_nil seg h2]
      exact hsuf (List.cons_ne_nil seg rest2)
    by_cases hseg : seg = []
    · subst hseg
      simp only [wildcardLoop, if_pos rfl]
      have hfil : (([] : List Char) :: rest2).filter (· ≠ []) = rest2.filter (· ≠ []) := by
        simp
      rw [hfil]
      apply ih (i + 1) tI (by omega)
      · simp only [List.length_cons] at hn; omega
      · exact hsuf2
    · simp only [wildcardLoop, if_neg hseg]
      have hfil : (seg :: rest2).filter (· ≠ []) = seg :: rest2.filter (· ≠ []) := by
        simp [List.filter_cons, hseg]
      rw [hfil]
      cases hidx : indexOfSub (text.drop tI) seg with
      | none => simp only [greedySegs, hidx]
      | some k =>
        simp only [greedySegs, hidx]
        rw [if_neg (by rintro ⟨h0, -⟩; omega)]
        by_cases hAE : pattern.getLast? = some '*'
        · rw [if_neg (by rintro ⟨-, -, h3⟩; exact h3 hAE)]
          rw [if_neg (by rintro ⟨-, h2, -⟩; simp [hAE] at h2)]
          apply ih (i + 1) ((k + tI) + seg.length) (by omega)
          · simp only [List.length_cons] at hn; omega
          · exact hsuf2
        · have hAEb : (!(pattern.getLast? == some '*')) = true := by
            simp [hAE]
          by_cases hr2 : rest2 = []
          · subst hr2
            have hlast : i = nParts - 1 := by
              simp only [List.length_cons, List.length_nil] at hn; omega
            by_cases hmis : (k + tI) + seg.length ≠ text.length
            · rw [if_pos ⟨hlast, hmis, hAE⟩]
              rw [if_pos ⟨by simp, hAEb, hmis⟩]
            · rw [if_neg (by rintro ⟨-, h2, -⟩; exact hmis h2)]
              rw [if_neg (by rintro ⟨-, -, h3⟩; exact hmis h3)]
              simp [wildcardLoop, greedySegs]
          · have hr2f : rest2.filter (· ≠ []) ≠ [] := by
              intro hf
              have := filter_nil_all_nil hr2 hf
              rw [hsuf2 hr2] at this
              exact hAE ((splitOnChar_getLast '*' pattern hp).mp this)
            have hnotlast : ¬ i = nParts - 1 := by
              simp only [List.length_cons] at hn
              have : rest2.length ≠ 0 := by
                intro h0
                exact hr2 (List.length_eq_zero.mp h0)
              omega
            rw [if_neg (by rintro ⟨h1, -, -⟩; exact hnotlast h1)]
            rw [if_neg (by rintro ⟨h1, -, -⟩; exact hr2f h1)]
            apply ih (i + 1) ((k + tI) + seg.length) (by omega)
            · simp only [List.length_cons] at hn; omega
            · exact hsuf2


theorem matchesWildcardPattern_eq_greedy (path pattern : List Char) :
    matchesWildcardPattern path pattern = specGreedyWildcard path pattern := by
  unfold matchesWildcardPattern specGreedyWildcard
  by_cases hp : pattern = []
  · simp [hp]
  · rw [if_neg hp, if_neg hp]
    by_cases hc : pattern.contains '*' = true
    · rw [hc]
      simp only [Bool.not_true, Bool.false_eq_true, if_false]
      have hmem : '*' ∈ pattern := by
        simpa using hc
      have hlen : 2 ≤ (splitOnChar '*' pattern).length := by
        rw [splitOnChar_length]
        have := List.count_pos_iff.mpr hmem
        omega
      obtain ⟨p0, prest, hparts⟩ : ∃ p0 prest, splitOnChar '*' pattern = p0 :: prest := by
        cases hq : splitOnChar '*' pattern with
        | nil => exact absurd hq (splitOnChar_ne_nil '*' pattern)
        | cons a b => exact ⟨a, b, rfl⟩
      have hprest : prest ≠ [] := by
        intro h0
        rw [hparts, h0] at hlen
        simp at hlen
      have hsuftop : prest ≠ [] → prest.getLast? = (splitOnChar '*' pattern).getLast? := by
        intro h2
        rw [hparts, getLast?_cons_ne_nil p0 h2]
      have hbe : ((!(pattern.getLast? == some '*')) = true) ↔ pattern.getLast? ≠ some '*' := by
        simp
      have hnofilter : pattern.getLast? ≠ some '*' → prest.filter (· ≠ []) ≠ [] := by
        intro hAE hf
        have := filter_nil_all_nil hprest hf
        rw [hsuftop hprest] at this
        exact hAE ((splitOnChar_getLast '*' pattern hp).mp this)
      unfold wildcardMatch
      by_cases hsp : splitOnChar '*' pattern = [[], []]
      · rw [if_pos hsp, hsp]
        simp
      · rw [if_neg hsp, hparts]
        by_cases hp0 : p0 = []
        · -- pattern starts with '*'
          subst hp0
          have hstar : pattern.head? = some '*' := by
            rcases splitOnChar_head_empty '*' pattern prest hparts with h | h
            · exact absurd h hp
            · exact h
          rw [wildcardLoop_cons_empty]
          rw [wildcardLoop_eq_greedySegs path pattern hp (([] : List Char) :: prest).length
            prest (0 + 1) 0 (by omega) (by simp; omega) hsuftop]
          have hfil : (([] : List Char) :: prest).filter (· ≠ []) = prest.filter (· ≠ []) := by
            simp
          rw [hfil]
          cases hsegs : prest.filter (· ≠ []) with
          | nil => simp [greedySegs]
          | cons seg sr =>
            rw [greedySegs]
            rw [List.drop_zero]
            dsimp only
            cases hidx : indexOfSub path seg with
            | none => rfl
            | some j =>
              dsimp only
              have c1 : ¬ (pattern.head? ≠ some '*' ∧ j ≠ 0) := by
                rintro ⟨h1, -⟩; exact h1 hstar
              rw [if_neg c1]
              simp only [Nat.add_zero]
              exact if_congr (and_congr Iff.rfl (and_congr hbe Iff.rfl)) rfl rfl
        · obtain ⟨y, r, hyr⟩ : ∃ y r, p0 = y :: r := by
            cases hq : p0 with
            | nil => exact absurd hq hp0
            | cons a b => exact ⟨a, b, rfl⟩
          have hhead : pattern.head? = some y :=
            splitOnChar_head_cons '*' y r pattern prest (hyr ▸ hparts)
          have hyne : y ≠ '*' := by
            intro hcontra
            apply splitOnChar_chars '*' pattern p0 (hparts ▸ List.mem_cons_self p0 prest)
            rw [hyr, hcontra]
            exact List.mem_cons_self '*' r
          have hheadne : pattern.head? ≠ some '*' := by
            rw [hhead]
            intro hcontra
            exact hyne (Option.some.inj hcontra)
          rw [wildcardLoop_cons path pattern (p0 :: prest).length p0 prest 0 0 hp0]
          rw [List.drop_zero]
          have hfil : (p0 :: prest).filter (· ≠ []) = p0 :: prest.filter (· ≠ []) := by
            simp [List.filter_cons, hp0]
          rw [hfil]
          dsimp only
          cases hidx : indexOfSub path p0 with
          | none => rfl
          | some j =>
            dsimp only
            have hne1 : ¬ (0 : Nat) = (p0 :: prest).length - 1 := by
              have h2 : 2 ≤ (p0 :: prest).length := by rw [← hparts]; exact hlen
              omega
            by_cases hj : j = 0
            · subst hj
              have cL1 : ¬ ((0 : Nat) = 0 ∧ (0 : Nat) + 0 ≠ 0 ∧ pattern.head? ≠ some '*') := by
                rintro ⟨-, h2, -⟩; exact h2 rfl
              have cR1 : ¬ (pattern.head? ≠ some '*' ∧ (0 : Nat) ≠ 0) := by
                rintro ⟨-, h2⟩; exact h2 rfl
              have cL2 : ¬ ((0 : Nat) = (p0 :: prest).length - 1
                  ∧ ((0 : Nat) + 0) + p0.length ≠ path.length
                  ∧ pattern.getLast? ≠ some '*') := by
                rintro ⟨h1, -, -⟩; exact hne1 h1
              have cR2 : ¬ (prest.filter (· ≠ []) = [] ∧ pattern.getLast? ≠ some '*'
                  ∧ (0 : Nat) + p0.length ≠ path.length) := by
                rintro ⟨h1, h2, -⟩; exact hnofilter h2 h1
              rw [if_neg cL1, if_neg cL2, if_neg cR1, if_neg cR2]
              rw [wildcardLoop_eq_greedySegs path pattern hp (p0 :: prest).length
                prest (0 + 1) (((0 : Nat) + 0) + p0.length) (by omega) (by simp; omega) hsuftop]
            · have cL1 : (0 : Nat) = 0 ∧ j + 0 ≠ 0 ∧ pattern.head? ≠ some '*' :=
                ⟨rfl, by simpa using hj, hheadne⟩
              have cR1 : pattern.head? ≠ some '*' ∧ j ≠ 0 := ⟨hheadne, hj⟩
              rw [if_pos cL1, if_pos cR1]
    · have hcf : pattern.contains '*' = false := by
        simpa using hc
      rw [hcf]
      simp

/-! ## Claim C4 -/

/-- Claim C4, counterexample: the claimed section 4.3 contract and the
implemented matcher disagree on path `"aa"` and pattern `"*a"`: the literal
segment `"a"` occurs at the path's end (position 1), so the claimed
contract matches, but the matcher anchors at the first occurrence
(position 0), which does not reach the end, and returns false. -/
theorem C4_counterexample :
    matchesWildcardPatternStr "aa" "*a" = false
      ∧ specWildcardContract "aa".toList "*a".toList = true := by
  constructor <;> rfl

/-- Claim C4 (amended): for every path and pattern, the wildcard matcher
returns true exactly when the greedy contract holds: an empty pattern matches
nothing; a pattern without `*` matches only on exact equality; otherwise every
literal segment between wildcards is located at its first occurrence at or
after the previous segment's match, the first segment anchored at position 0
unless the pattern starts with `*`, and, unless the pattern ends with `*`,
the first such occurrence of the last segment must end exactly at the path's
end; consecutive wildcards behave as a single wildcard. -/
theorem C4_matcher_eq_greedy_contract (path pattern : String) :
    matchesWildcardPatternStr path pattern
      = specGreedyWildcard path.toList pattern.toList :=
  matchesWildcardPattern_eq_greedy path.toList pattern.toList


/-! ## Small helper lemmas for the builder -/

theorem isPrefixOf_append_self (l1 l2 : List Char) : l1.isPrefixOf (l1 ++ l2) = true := by
  induction l1 with
  | nil => simp [List.isPrefixOf]
  | cons a as ih => simp [List.isPrefixOf, ih]

theorem isPrefixOf_self_char (l : List Char) : l.isPrefixOf l = true := by
  have h := isPrefixOf_append_self l []
  rw [List.append_nil] at h
  exact h

theorem strHasPre_self (s : String) : strHasPre s s = true :=
  isPrefixOf_self_char s.toList

theorem toList_append (a b : String) : (a ++ b).toList = a.toList ++ b.toList := rfl

theorem strHasPre_append (m t : String) : strHasPre (m ++ t) m = true := by
  unfold strHasPre
  rw [toList_append]
  exact isPrefixOf_append_self m.toList t.toList

theorem strTrimPre_self (s : String) : strTrimPre s s = "" := by
  unfold strTrimPre
  rw [strHasPre_self]
  rw [if_pos rfl]
  show String.mk (s.toList.drop s.toList.length) = ""
  rw [List.drop_length]

theorem lookup_isSome_iff {β : Type} (l : List (String × β)) (k : String) :
    ((l.lookup k).isSome = true) ↔ k ∈ l.map Prod.fst := by
  induction l with
  | nil => simp [List.lookup]
  | cons pr rest ih =>
    by_cases hk : k = pr.1
    · subst hk
      simp [List.lookup]
    · rw [List.lookup]
      have : (k == pr.1) = false := by
        simpa using hk
      rw [this]
      simp only [List.map_cons, List.mem_cons]
      rw [ih]
      constructor
      · exact Or.inr
      · rintro (h | h)
        · exact absurd h hk
        · exact h

/-! ## Claim C10 -/

/-- Claim C10: the pattern `"*"` matches the empty relative path, and hence a
package whose module-relative path is empty (the module-root package, for any
module name) is excluded by an `excludeDirs` entry `"*"`. -/
theorem C10_star_excludes_module_root :
    matchesWildcardPatternStr "" "*" = true
      ∧ ∀ (m : String) (dirs : List String), "*" ∈ dirs →
          isExcludedPackage ⟨m, dirs⟩ m = true := by
  refine ⟨rfl, fun m dirs hmem => ?_⟩
  unfold isExcludedPackage
  have hint : isInternalPackage ⟨m, dirs⟩ m = true := strHasPre_self m
  rw [hint]
  simp only [Bool.not_true, Bool.false_eq_true, if_false]
  have hrel : strTrimPre (strTrimPre m m) "/" = "" := by
    rw [strTrimPre_self]
    rfl
  rw [hrel]
  rw [List.any_eq_true]
  exact ⟨"*", hmem, rfl⟩

/-- Witness for C10 at a concrete module name and pattern list. -/
theorem C10_witness : isExcludedPackage ⟨"example.com/mod", ["*"]⟩ "example.com/mod" = true :=
  C10_star_excludes_module_root.2 "example.com/mod" ["*"] (by decide)


/-! ## Walk lemmas and claims C7, C8 -/

theorem foldl_pres {α : Type} (P : WalkState → Prop) (f : WalkState → α → WalkState)
    (hf : ∀ st d, P st → P (f st d)) :
    ∀ (ds : List α) (st : WalkState), P st → P (ds.foldl f st) := by
  intro ds
  induction ds with
  | nil => intro st h; exact h
  | cons d ds ih => intro st h; exact ih (f st d) (hf st d h)

theorem analyzePackage_keys_mono (cfg : AnalyzerConfig)
    (fs : List (String × (List String × Nat))) (ee : Bool) (k : String) :
    ∀ (fuel : Nat) (pkgPath : String) (st : WalkState),
      k ∈ st.packages.map Prod.fst →
      k ∈ (analyzePackage cfg fs ee fuel pkgPath st).1.packages.map Prod.fst := by
  intro fuel
  induction fuel with
  | zero => intro pkgPath st hk; simpa [analyzePackage] using hk
  | succ fuel ih =>
    intro pkgPath st hk
    simp only [analyzePackage]
    split
    · exact hk
    · split
      · exact hk
      · split
        · exact hk
        · split
          · simp only [List.map_append, List.mem_append]
            exact Or.inl hk
          · split
            · exact hk
            · refine foldl_pres (fun s => k ∈ s.packages.map Prod.fst) _
                (fun st2 d h2 => ih d st2 h2) _ _ ?_
              simp only [List.map_append, List.mem_append]
              exact Or.inl hk

theorem entryPkg_internal (cfg : AnalyzerConfig) (rel : String) :
    isInternalPackage cfg (entryPkgOf cfg rel) = true := by
  unfold entryPkgOf
  by_cases hrel : rel = ""
  · rw [if_pos hrel]
    exact strHasPre_self cfg.moduleName
  · rw [if_neg hrel]
    unfold isInternalPackage strHasPre
    rw [toList_append, toList_append, List.append_assoc]
    exact isPrefixOf_append_self _ _

/-- Claim C7, counterexample: with `excludeDirs = ["*"]` and the entry file in
the module root, the analysis succeeds but returns an empty `packages` map, so
`entryPackage` is not one of its keys. -/
theorem C7_counterexample :
    analyzeFromFile ⟨"m", ["*"]⟩ [("m", ([], 1))] (some "") false 5
        = some ⟨"m", [], [[]], "m"⟩
      ∧ "m" ∉ keysOf ⟨"m", [], [[]], "m"⟩ := by
  constructor
  · rfl
  · simp [keysOf]

/-- Claim C7 (amended): for every entry file, `excludeExternal` flag and
`excludeDirs` list, whenever the single-entry analysis returns successfully
AND the entry package is not excluded by `excludeDirs`, the returned graph's
`entryPackage` is a key of its `packages` map.  (`fuel + 1` rules out only the
degenerate zero-fuel run of the termination bound, which the analyzer never
performs.) -/
theorem C7_entry_in_packages (cfg : AnalyzerConfig)
    (fs : List (String × (List String × Nat))) (entryRel : Option String)
    (ee : Bool) (fuel : Nat) (g : DependencyGraph)
    (hok : analyzeFromFile cfg fs entryRel ee (fuel + 1) = some g)
    (hexc : isExcludedPackage cfg g.entryPackage = false) :
    g.entryPackage ∈ keysOf g := by
  cases entryRel with
  | none => simp [analyzeFromFile] at hok
  | some rel =>
    simp only [analyzeFromFile] at hok
    split at hok
    · exact absurd hok (by simp)
    · rename_i hsucc
      have hg := Option.some.inj hok
      have hentry : g.entryPackage = entryPkgOf cfg rel := by
        rw [← hg]
        rfl
      have hkeys : keysOf g
          = (analyzePackage cfg fs ee (fuel + 1) (entryPkgOf cfg rel)
              ⟨[], []⟩).1.packages.map Prod.fst := by
        rw [← hg]
        rfl
      rw [hentry, hkeys]
      rw [hentry] at hexc
      revert hsucc
      simp only [analyzePackage]
      rw [if_neg (by simp : ¬ (entryPkgOf cfg rel ∈ (⟨[], []⟩ : WalkState).visited))]
      rw [if_neg (by rw [hexc]; simp : ¬ (isExcludedPackage cfg (entryPkgOf cfg rel) = true))]
      rw [if_neg (by rw [entryPkg_internal]; simp :
        ¬ (ee = true ∧ ¬ isInternalPackage cfg (entryPkgOf cfg rel) = true))]
      rw [if_neg (by rw [entryPkg_internal]; simp :
        ¬ (¬ isInternalPackage cfg (entryPkgOf cfg rel) = true))]
      cases hlook : fs.lookup (entryPkgOf cfg rel) with
      | none => intro hsucc; exact absurd rfl hsucc
      | some v =>
        intro hsucc
        refine foldl_pres (fun s => entryPkgOf cfg rel ∈ s.packages.map Prod.fst) _
          (fun st2 d h2 => analyzePackage_keys_mono cfg fs ee _ fuel d st2 h2) _ _ ?_
        simp

/-- Witness for C7: a successful two-package run with no exclusions. -/
theorem C7_witness :
    analyzeFromFile ⟨"m", []⟩ [("m/a", (["m/b"], 1)), ("m/b", ([], 1))]
        (some "a") false (4 + 1)
      = some ⟨"m/a",
          [("m/a", ⟨"a", "m/a", ["m/b"], 1⟩), ("m/b", ⟨"b", "m/b", [], 1⟩)],
          [["m/a"], ["m/b"]], "m"⟩
      ∧ "m/a" ∈ keysOf ⟨"m/a",
          [("m/a", ⟨"a", "m/a", ["m/b"], 1⟩), ("m/b", ⟨"b", "m/b", [], 1⟩)],
          [["m/a"], ["m/b"]], "m"⟩ := by
  constructor
  · decide
  · exact C7_entry_in_packages ⟨"m", []⟩ [("m/a", (["m/b"], 1)), ("m/b", ([], 1))]
      (some "a") false 4 _ (by decide) (by decide)

/-- Claim C8: the single-entry analysis fails exactly when the entry file
cannot be resolved into a package path, or when reading the entry package's
own import set fails (its directory is missing from `fs`) while the entry
package is not excluded; a failure inside any dependency is skipped and the
call still succeeds, since the error condition does not depend on any other
entry of `fs`. -/
theorem C8_error_characterization :
    (∀ (cfg : AnalyzerConfig) (fs : List (String × (List String × Nat)))
        (ee : Bool) (fuel : Nat), analyzeFromFile cfg fs none ee fuel = none)
      ∧ ∀ (cfg : AnalyzerConfig) (fs : List (String × (List String × Nat)))
          (rel : String) (ee : Bool) (fuel : Nat),
          (analyzeFromFile cfg fs (some rel) ee (fuel + 1) = none
            ↔ isExcludedPackage cfg (entryPkgOf cfg rel) = false
                ∧ fs.lookup (entryPkgOf cfg rel) = none) := by
  constructor
  · intro cfg fs ee fuel
    rfl
  · intro cfg fs rel ee fuel
    simp only [analyzeFromFile, analyzePackage]
    rw [if_neg (by simp : ¬ (entryPkgOf cfg rel ∈ (⟨[], []⟩ : WalkState).visited))]
    by_cases hexc : isExcludedPackage cfg (entryPkgOf cfg rel) = true
    · rw [if_pos hexc]
      simp [hexc]
    · rw [if_neg hexc]
      rw [if_neg (by rw [entryPkg_internal]; simp :
        ¬ (ee = true ∧ ¬ isInternalPackage cfg (entryPkgOf cfg rel) = true))]
      rw [if_neg (by rw [entryPkg_internal]; simp :
        ¬ (¬ isInternalPackage cfg (entryPkgOf cfg rel) = true))]
      cases hlook : fs.lookup (entryPkgOf cfg rel) with
      | none =>
        simp only [if_pos rfl]
        simp [hexc]
      | some v =>
        simp [hexc]

/-- Witness for C8's equivalence at a concrete failing and succeeding input. -/
theorem C8_witness :
    analyzeFromFile ⟨"m", []⟩ [] (some "a") false (2 + 1) = none
      ∧ analyzeFromFile ⟨"m", []⟩ [("m/a", ([], 1))] (some "a") false (2 + 1) ≠ none := by
  constructor
  · exact (C8_error_characterization.2 ⟨"m", []⟩ [] "a" false 2).mpr (by constructor <;> rfl)
  · intro hnone
    have := (C8_error_characterization.2 ⟨"m", []⟩ [("m/a", ([], 1))] "a" false 2).mp hnone
    exact absurd this.2 (by simp [entryPkgOf])


/-! ## Claims C6, C3, and the C5 counterexample -/

/-- Claim C6: building the two-package cyclic graph (A imports B, B imports A)
terminates — the result is the same for every sufficient recursion budget,
because the visited set stops the second expansion of A — and both edges are
present in the respective dependency lists and both are marked circular by
the cycle detector. -/
theorem C6_cycle_tolerance (k : Nat) :
    analyzeFromFile ⟨"m", []⟩ [("m/a", (["m/b"], 1)), ("m/b", (["m/a"], 1))]
        (some "a") false (k + 3)
      = some ⟨"m/a",
          [("m/a", ⟨"a", "m/a", ["m/b"], 1⟩), ("m/b", ⟨"b", "m/b", ["m/a"], 1⟩)],
          [["m/a", "m/b"]], "m"⟩
    ∧ (∀ info, (⟨"m/a", [("m/a", ⟨"a", "m/a", ["m/b"], 1⟩),
          ("m/b", ⟨"b", "m/b", ["m/a"], 1⟩)], [["m/a", "m/b"]], "m"⟩
            : DependencyGraph).packages.lookup "m/a" = some info →
          "m/b" ∈ info.dependencies)
    ∧ (∀ info, (⟨"m/a", [("m/a", ⟨"a", "m/a", ["m/b"], 1⟩),
          ("m/b", ⟨"b", "m/b", ["m/a"], 1⟩)], [["m/a", "m/b"]], "m"⟩
            : DependencyGraph).packages.lookup "m/b" = some info →
          "m/a" ∈ info.dependencies)
    ∧ ("m/a", "m/b") ∈ detectCircularDependencies
        ⟨"m/a", [("m/a", ⟨"a", "m/a", ["m/b"], 1⟩), ("m/b", ⟨"b", "m/b", ["m/a"], 1⟩)],
          [["m/a", "m/b"]], "m"⟩
    ∧ ("m/b", "m/a") ∈ detectCircularDependencies
        ⟨"m/a", [("m/a", ⟨"a", "m/a", ["m/b"], 1⟩), ("m/b", ⟨"b", "m/b", ["m/a"], 1⟩)],
          [["m/a", "m/b"]], "m"⟩ := by
  have hwalk : analyzePackage ⟨"m", []⟩ [("m/a", (["m/b"], 1)), ("m/b", (["m/a"], 1))]
      false (k + 3) "m/a" ⟨[], []⟩
    = (⟨["m/b", "m/a"],
        [("m/a", ⟨"a", "m/a", ["m/b"], 1⟩), ("m/b", ⟨"b", "m/b", ["m/a"], 1⟩)]⟩, false) := rfl
  refine ⟨?_, by decide, by decide, by decide, by decide⟩
  show analyzeFromFile ⟨"m", []⟩ [("m/a", (["m/b"], 1)), ("m/b", (["m/a"], 1))]
      (some "a") false (k + 3) = _
  simp only [analyzeFromFile]
  rw [show entryPkgOf ⟨"m", []⟩ "a" = "m/a" from rfl]
  rw [hwalk]
  rfl

/-- Claim C3, counterexample: in the `test/layers` scenario the computed
layers field is `[[test/layers], [test/layers/middleware], [test/layers/util]]`
— the entry package, having no dependents, sits in bucket 0 — not the claimed
`[[util], [middleware], [main]]`. -/
theorem C3_counterexample :
    (analyzeFromFile ⟨"test/layers", []⟩
        [("test/layers", (["test/layers/middleware"], 1)),
         ("test/layers/middleware", (["test/layers/util"], 1)),
         ("test/layers/util", ([], 1))] (some "") false 6).map (fun g => g.layers)
      = some [["test/layers"], ["test/layers/middleware"], ["test/layers/util"]]
    ∧ some [["test/layers"], ["test/layers/middleware"], ["test/layers/util"]]
      ≠ some [["test/layers/util"], ["test/layers/middleware"], ["test/layers"]] := by
  refine ⟨rfl, by decide⟩

/-- Claim C3 (amended): in the `test/layers` scenario the computed layers are
exactly `[[test/layers], [test/layers/middleware], [test/layers/util]]`:
bucket 0 holds the entry package `test/layers` (main), bucket 1 holds
middleware, bucket 2 holds util — the reverse of the claimed bucket order. -/
theorem C3_layers_scenario :
    (analyzeFromFile ⟨"test/layers", []⟩
        [("test/layers", (["test/layers/middleware"], 1)),
         ("test/layers/middleware", (["test/layers/util"], 1)),
         ("test/layers/util", ([], 1))] (some "") false 6).map (fun g => g.layers)
      = some [["test/layers"], ["test/layers/middleware"], ["test/layers/util"]] := rfl

/-- Claim C5, counterexample: in the graph with packages a → {b, c}, b → {c},
c → {a} (in that iteration order), the edge (a, c) lies on the cycle a → c → a
but is not in the detector's output: the DFS reaches c through b first, marks
only the cycle a → b → c → a, and never revisits c's subtree. -/
theorem C5_counterexample :
    onCycleEdge
      ⟨"a", [("a", ⟨"a", "a", ["b", "c"], 1⟩), ("b", ⟨"b", "b", ["c"], 1⟩),
        ("c", ⟨"c", "c", ["a"], 1⟩)], [], "m"⟩ "a" "c"
    ∧ ("a", "c") ∉ detectCircularDependencies
      ⟨"a", [("a", ⟨"a", "a", ["b", "c"], 1⟩), ("b", ⟨"b", "b", ["c"], 1⟩),
        ("c", ⟨"c", "c", ["a"], 1⟩)], [], "m"⟩ := by
  refine ⟨⟨["a", "c"], by decide, by decide⟩, by decide⟩


/-! ## Claim C9: dangling dependency edges are representable and skipped -/

theorem lookup_map_snd (f : PackageInfo → PackageInfo) :
    ∀ (l : List (String × PackageInfo)) (k : String),
      (l.map (fun pr => (pr.1, f pr.2))).lookup k = (l.lookup k).map f := by
  intro l
  induction l with
  | nil => intro k; rfl
  | cons pr rest ih =>
    intro k
    by_cases hk : k = pr.1
    · subst hk
      simp [List.lookup]
    · have hbeq : (k == pr.1) = false := by simpa using hk
      simp only [List.map_cons, List.lookup, hbeq]
      exact ih k

theorem restrict_lookup (g : DependencyGraph) (k : String) :
    (restrictDeps g).packages.lookup k
      = (g.packages.lookup k).map (fun info =>
          { info with dependencies :=
              info.dependencies.filter (fun d => (g.packages.lookup d).isSome) }) :=
  lookup_map_snd
    (fun info => { info with dependencies :=
        info.dependencies.filter (fun d => (g.packages.lookup d).isSome) })
    g.packages k

theorem restrict_lookup_isSome (g : DependencyGraph) (k : String) :
    ((restrictDeps g).packages.lookup k).isSome = (g.packages.lookup k).isSome := by
  rw [restrict_lookup]
  cases g.packages.lookup k <;> rfl

theorem buildReverse_restrict (g : DependencyGraph) (circ : List (String × String)) :
    buildReverseDependencyMap (restrictDeps g) circ = buildReverseDependencyMap g circ := by
  funext dep
  unfold buildReverseDependencyMap
  simp only [restrict_lookup_isSome]
  rw [show (restrictDeps g).packages = g.packages.map (fun pr => (pr.1,
    { pr.2 with dependencies :=
        pr.2.dependencies.filter (fun d => (g.packages.lookup d).isSome) })) from rfl]
  rw [List.filter_map, List.map_map]
  have hcond : ∀ pr ∈ g.packages,
      ((fun pr : String × PackageInfo =>
          decide (dep ∈ pr.2.dependencies ∧ (g.packages.lookup dep).isSome = true
            ∧ (pr.1, dep) ∉ circ)) ∘
        (fun pr : String × PackageInfo => (pr.1,
          { pr.2 with dependencies :=
              pr.2.dependencies.filter (fun d => (g.packages.lookup d).isSome) }))) pr
      = (fun pr : String × PackageInfo =>
          decide (dep ∈ pr.2.dependencies ∧ (g.packages.lookup dep).isSome = true
            ∧ (pr.1, dep) ∉ circ)) pr := by
    intro pr hpr
    simp only [Function.comp]
    rw [decide_eq_decide]
    rw [List.mem_filter]
    constructor
    · rintro ⟨⟨h1, -⟩, h2, h3⟩
      exact ⟨h1, h2, h3⟩
    · rintro ⟨h1, h2, h3⟩
      exact ⟨⟨h1, h2⟩, h2, h3⟩
  rw [List.filter_congr hcond]
  apply List.map_congr_left
  intro pr hpr
  rfl

theorem processDeps_restrict (g : DependencyGraph) (fuel : Nat)
    (hdfs : ∀ node path st, dfsForCycles (restrictDeps g) fuel node path st
      = dfsForCycles g fuel node path st) :
    ∀ (deps : List String) (path : List String) (st : CycState),
      processDependenciesForCycles (restrictDeps g)
          (fun d p s => dfsForCycles (restrictDeps g) fuel d p s)
          (deps.filter (fun d => (g.packages.lookup d).isSome)) path st
        = processDependenciesForCycles g (fun d p s => dfsForCycles g fuel d p s)
            deps path st := by
  intro deps
  induction deps with
  | nil => intro path st; rfl
  | cons d ds ih =>
    intro path st
    cases hq : g.packages.lookup d with
    | none =>
      rw [List.filter_cons_of_neg (by rw [hq]; simp)]
      rw [show processDependenciesForCycles g (fun d p s => dfsForCycles g fuel d p s)
            (d :: ds) path st
          = processDependenciesForCycles g (fun d p s => dfsForCycles g fuel d p s) ds path
            (if (g.packages.lookup d).isNone then st
             else if d ∉ st.visited then dfsForCycles g fuel d path st
             else if d ∈ st.recStack then
               { st with cycles := extractCycleFromPath d path st.cycles }
             else st) from rfl]
      rw [if_pos (by rw [hq]; rfl)]
      exact ih path st
    | some pkg =>
      rw [List.filter_cons_of_pos (by rw [hq]; simp)]
      rw [show processDependenciesForCycles (restrictDeps g)
            (fun d p s => dfsForCycles (restrictDeps g) fuel d p s)
            (d :: ds.filter (fun d => (g.packages.lookup d).isSome)) path st
          = processDependenciesForCycles (restrictDeps g)
              (fun d p s => dfsForCycles (restrictDeps g) fuel d p s)
              (ds.filter (fun d => (g.packages.lookup d).isSome)) path
              (if ((restrictDeps g).packages.lookup d).isNone then st
               else if d ∉ st.visited then dfsForCycles (restrictDeps g) fuel d path st
               else if d ∈ st.recStack then
                 { st with cycles := extractCycleFromPath d path st.cycles }
               else st) from rfl]
      rw [show processDependenciesForCycles g (fun d p s => dfsForCycles g fuel d p s)
            (d :: ds) path st
          = processDependenciesForCycles g (fun d p s => dfsForCycles g fuel d p s) ds path
            (if (g.packages.lookup d).isNone then st
             else if d ∉ st.visited then dfsForCycles g fuel d path st
             else if d ∈ st.recStack then
               { st with cycles := extractCycleFromPath d path st.cycles }
             else st) from rfl]
      have hrs : ((restrictDeps g).packages.lookup d).isNone = false := by
        have h1 := restrict_lookup_isSome g d
        rw [hq] at h1
        cases hq2 : (restrictDeps g).packages.lookup d with
        | none => rw [hq2] at h1; simp at h1
        | some v => rfl
      rw [if_neg (show ¬ (((restrictDeps g).packages.lookup d).isNone = true) from by
        rw [hrs]; simp)]
      rw [if_neg (show ¬ ((g.packages.lookup d).isNone = true) from by
        rw [hq]; simp)]
      rw [show (if d ∉ st.visited then dfsForCycles (restrictDeps g) fuel d path st
          else if d ∈ st.recStack then
            { st with cycles := extractCycleFromPath d path st.cycles }
          else st)
        = (if d ∉ st.visited then dfsForCycles g fuel d path st
          else if d ∈ st.recStack then
            { st with cycles := extractCycleFromPath d path st.cycles }
          else st) from by
        by_cases hv : d ∉ st.visited
        · rw [if_pos hv, if_pos hv, hdfs]
        · rw [if_neg hv, if_neg hv]]
      exact ih path _

theorem dfs_restrict (g : DependencyGraph) :
    ∀ (fuel : Nat) (node : String) (path : List String) (st : CycState),
      dfsForCycles (restrictDeps g) fuel node path st
        = dfsForCycles g fuel node path st := by
  intro fuel
  induction fuel with
  | zero => intro node path st; rfl
  | succ fuel ih =>
    intro node path st
    simp only [dfsForCycles]
    rw [restrict_lookup]
    cases hlk : g.packages.lookup node with
    | none => rfl
    | some pkg =>
      dsimp only [Option.map]
      rw [processDeps_restrict g fuel ih pkg.dependencies (path ++ [node])
        { st with visited := node :: st.visited, recStack := node :: st.recStack }]

theorem foldl_congr_fn {α β : Type} (f f2 : β → α → β) :
    ∀ (l : List α) (b : β), (∀ st a, f st a = f2 st a) → l.foldl f b = l.foldl f2 b := by
  intro l
  induction l with
  | nil => intro b h; rfl
  | cons a l ih =>
    intro b h
    rw [List.foldl_cons, List.foldl_cons, h]
    exact ih (f2 b a) h

theorem findAllCycles_restrict (g : DependencyGraph) :
    findAllCycles (restrictDeps g) = findAllCycles g := by
  unfold findAllCycles
  have hkeys : (restrictDeps g).packages.map Prod.fst = g.packages.map Prod.fst := by
    unfold restrictDeps
    rw [List.map_map]
    rfl
  have hlen : (restrictDeps g).packages.length = g.packages.length := by
    unfold restrictDeps
    rw [List.length_map]
  rw [hkeys, hlen]
  congr 1
  apply foldl_congr_fn
  intro st pkgPath
  by_cases hv : pkgPath ∉ st.visited
  · rw [if_pos hv, if_pos hv, dfs_restrict]
  · rw [if_neg hv, if_neg hv]

/-- Claim C9: (1) a successfully returned graph can list a dependency that is
not a key of `packages` — here `m/b`, matching exclude pattern `"b"`, is in
`m/a`'s dependencies but never added; (2) for every graph, the reverse map and
the cycle DFS behave as if each dependency list were restricted to the keys of
`packages`: dangling edges are skipped, so layer assignment and cycle
detection are total on such graphs. -/
theorem C9_dangling_edges :
    (analyzeFromFile ⟨"m", ["b"]⟩ [("m/a", (["m/b"], 1)), ("m/b", ([], 1))]
        (some "a") false 5
      = some ⟨"m/a", [("m/a", ⟨"a", "m/a", ["m/b"], 1⟩)], [["m/a"]], "m"⟩
    ∧ (∀ info, ([("m/a", (⟨"a", "m/a", ["m/b"], 1⟩ : PackageInfo))].lookup "m/a"
          = some info) → "m/b" ∈ info.dependencies)
    ∧ "m/b" ∉ keysOf ⟨"m/a", [("m/a", ⟨"a", "m/a", ["m/b"], 1⟩)], [["m/a"]], "m"⟩)
    ∧ (∀ (g : DependencyGraph) (circ : List (String × String)),
        buildReverseDependencyMap g circ = buildReverseDependencyMap (restrictDeps g) circ)
    ∧ (∀ g : DependencyGraph, findAllCycles g = findAllCycles (restrictDeps g)) := by
  refine ⟨⟨by decide, by decide, by decide⟩, ?_, ?_⟩
  · intro g circ
    exact (buildReverse_restrict g circ).symm
  · intro g
    exact (findAllCycles_restrict g).symm


/-! ## Claim C1: the Layer Assigner implements the claimed fixed-point rule -/

theorem buildReverse_mem_keys (g : DependencyGraph) (circ : List (String × String))
    (q d : String) (h : d ∈ buildReverseDependencyMap g circ q) :
    (g.packages.lookup d).isSome = true := by
  unfold buildReverseDependencyMap at h
  rw [List.mem_map] at h
  obtain ⟨pr, hpr, hfst⟩ := h
  rw [List.mem_filter] at hpr
  rw [lookup_isSome_iff]
  rw [List.mem_map]
  exact ⟨pr, hpr.1, hfst⟩

theorem foldl_max_neg_one (xs : List Int) (x : Int) (hx : 0 ≤ x) :
    (x :: xs).foldl max (-1) = xs.foldl max x := by
  rw [List.foldl_cons]
  congr 1
  exact max_eq_right (by omega)

theorem calcOptimal_eq_spec (g : DependencyGraph) (circ : List (String × String))
    (layers : List (String × Int)) (p : String) :
    calculateOptimalLayer g p layers (buildReverseDependencyMap g circ)
      = specAssignLayer p layers (buildReverseDependencyMap g circ p) := by
  unfold calculateOptimalLayer specAssignLayer
  have hds : (buildReverseDependencyMap g circ p).filter
      (fun d => (g.packages.lookup d).isSome) = buildReverseDependencyMap g circ p := by
    apply List.filter_eq_self.mpr
    intro d hd
    simpa using buildReverse_mem_keys g circ p d hd
  rw [hds]
  by_cases hd : buildReverseDependencyMap g circ p = []
  · rw [hd]
    simp
  · rw [if_neg hd]
    cases hcs : (buildReverseDependencyMap g circ p).filterMap (fun d =>
      match layers.lookup d with
      | some dl => if dl ≥ 0 then some dl else none
      | none => none) with
    | nil =>
      rw [if_neg (by rintro ⟨-, h2⟩; exact h2 hcs)]
      rw [if_pos hd]
    | cons x xs =>
      rw [if_pos ⟨hd, by rw [hcs]; simp⟩]
      rw [hcs]
      have hx : 0 ≤ x := by
        have hmem : x ∈ (buildReverseDependencyMap g circ p).filterMap (fun d =>
          match layers.lookup d with
          | some dl => if dl ≥ 0 then some dl else none
          | none => none) := by
          rw [hcs]
          exact List.mem_cons_self x xs
        rw [List.mem_filterMap] at hmem
        obtain ⟨d, -, hfd⟩ := hmem
        cases hq : layers.lookup d with
        | none => rw [hq] at hfd; simp at hfd
        | some dl =>
          rw [hq] at hfd
          dsimp only at hfd
          by_cases hdl : dl ≥ 0
          · rw [if_pos hdl] at hfd
            have := Option.some.inj hfd
            omega
          · rw [if_neg hdl] at hfd
            simp at hfd
      rw [foldl_max_neg_one xs x hx]

theorem pass_eq_spec (g : DependencyGraph) (circ : List (String × String))
    (layers : List (String × Int)) :
    iterateLayerCalculation g layers (buildReverseDependencyMap g circ)
      = specLayerPass g (buildReverseDependencyMap g circ) layers := by
  unfold iterateLayerCalculation specLayerPass keysOf
  apply foldl_congr_fn
  intro acc pkgPath
  rw [calcOptimal_eq_spec]

theorem loop_eq_spec (g : DependencyGraph) (circ : List (String × String)) :
    ∀ (n : Nat) (layers : List (String × Int)),
      calcLayersLoop g (buildReverseDependencyMap g circ) n layers
        = specLayerLoop g (buildReverseDependencyMap g circ) n layers := by
  intro n
  induction n with
  | zero => intro layers; rfl
  | succ n ih =>
    intro layers
    unfold calcLayersLoop specLayerLoop
    rw [pass_eq_spec]
    by_cases hch : (specLayerPass g (buildReverseDependencyMap g circ) layers).2 = true
    · rw [if_pos hch, if_pos hch, ih]
    · rw [if_neg hch, if_neg hch]

/-- Claim C1: the Layer Assigner computes layers exactly by the claimed
fixed-point rule: packages processed in lexicographically sorted order per
pass; layer 0 when there are no recorded (non-circular) dependents; max of
the already-computed dependent layers plus one when there is at least one;
otherwise the current layer is kept if ≥ 0 and else set to the provisional 1;
passes repeat until one changes nothing or (number of packages + 5) passes
have run. -/
theorem C1_layer_fixed_point_rule (g : DependencyGraph) :
    layerAssignment g = specLayerAssignment g := by
  unfold layerAssignment specLayerAssignment maxIterationsPadding
  exact loop_eq_spec g (detectCircularDependencies g) (g.packages.length + 5)
    (initLayerMap g)


/-! ## Soundness of the cycle detector (claim C5, amended) -/

theorem chainOKB_tail (g : DependencyGraph) (a : String) (l : List String)
    (h : chainOKB g (a :: l) = true) : chainOKB g l = true := by
  cases l with
  | nil => rfl
  | cons b rest =>
    unfold chainOKB at h
    rw [Bool.and_eq_true] at h
    exact h.2

theorem getLastD_cons_ne {α : Type} (a d : α) (l : List α) (h : l ≠ []) :
    (a :: l).getLastD d = l.getLastD d := by
  rw [List.getLastD_eq_getLast?, List.getLastD_eq_getLast?]
  rw [getLast?_cons_ne_nil a h]

theorem chainOKB_snoc (g : DependencyGraph) :
    ∀ (path : List String) (dep : String), path ≠ [] →
      chainOKB g path = true →
      edgeB g (path.getLastD "") dep = true →
      chainOKB g (path ++ [dep]) = true := by
  intro path
  induction path with
  | nil => intro dep h; exact absurd rfl h
  | cons a l ih =>
    intro dep hne hchain hedge
    cases l with
    | nil =>
      show chainOKB g (a :: [dep]) = true
      unfold chainOKB
      rw [Bool.and_eq_true]
      exact ⟨hedge, rfl⟩
    | cons b rest =>
      unfold chainOKB at hchain
      rw [Bool.and_eq_true] at hchain
      rw [getLastD_cons_ne a "" (b :: rest) (by simp)] at hedge
      have hrec := ih dep (by simp) hchain.2 hedge
      show chainOKB g ((a :: b :: rest) ++ [dep]) = true
      rw [List.cons_append, List.cons_append]
      show chainOKB g (a :: b :: (rest ++ [dep])) = true
      unfold chainOKB
      rw [Bool.and_eq_true]
      constructor
      · exact hchain.1
      · rw [List.cons_append] at hrec
        exact hrec

theorem chainOKB_dropWhile (g : DependencyGraph) (p : String → Bool) :
    ∀ (path : List String), chainOKB g path = true →
      chainOKB g (path.dropWhile p) = true := by
  intro path
  induction path with
  | nil => intro h; exact h
  | cons a l ih =>
    intro h
    rw [List.dropWhile_cons]
    by_cases hp : p a = true
    · rw [if_pos hp]
      exact ih (chainOKB_tail g a l h)
    · rw [if_neg hp]
      exact h

theorem dropWhile_head_eq (dep : String) :
    ∀ (path : List String), dep ∈ path →
      ∃ rest, path.dropWhile (fun x => decide (x ≠ dep)) = dep :: rest := by
  intro path
  induction path with
  | nil => intro h; simp at h
  | cons a l ih =>
    intro h
    rw [List.dropWhile_cons]
    by_cases ha : a = dep
    · subst ha
      rw [if_neg (by simp)]
      exact ⟨l, rfl⟩
    · rw [if_pos (by simpa using ha)]
      rcases List.mem_cons.mp h with h1 | h2
      · exact absurd h1.symm ha
      · exact ih h2

theorem dropWhile_getLast_eq (p : String → Bool) :
    ∀ (path : List String), path.dropWhile p ≠ [] →
      (path.dropWhile p).getLastD "" = path.getLastD "" := by
  intro path
  induction path with
  | nil => intro h; exact absurd rfl h
  | cons a l ih =>
    intro hne
    rw [List.dropWhile_cons] at hne ⊢
    by_cases hp : p a = true
    · rw [if_pos hp] at hne ⊢
      rw [ih hne]
      have hl : l ≠ [] := by
        intro h0
        rw [h0] at hne
        exact hne rfl
      cases l with
      | nil => exact absurd rfl hl
      | cons b rest => rfl
    · rw [if_neg hp]

theorem wrap_all_of_chain (g : DependencyGraph) (first : String) :
    ∀ (l : List String) (a : String), chainOKB g (a :: l) = true →
      edgeB g ((a :: l).getLastD "") first = true →
      ((a :: l).zip (l ++ [first])).all (fun pr => edgeB g pr.1 pr.2) = true := by
  intro l
  induction l with
  | nil =>
    intro a hchain hedge
    simp only [List.nil_append, List.zip_cons_cons, List.zip_nil_left, List.all_cons,
      List.all_nil, Bool.and_true]
    exact hedge
  | cons b rest ih =>
    intro a hchain hedge
    unfold chainOKB at hchain
    rw [Bool.and_eq_true] at hchain
    rw [List.cons_append, List.zip_cons_cons, List.all_cons, Bool.and_eq_true]
    constructor
    · exact hchain.1
    · exact ih b hchain.2 hedge

theorem extractCycle_sound (g : DependencyGraph) (dep : String) (path : List String)
    (hchain : chainOKB g path = true)
    (hedge : dep ∈ path → edgeB g (path.getLastD "") dep = true) :
    ∀ c ∈ extractCycleFromPath dep path [], isCycleListB g c = true := by
  intro c hc
  unfold extractCycleFromPath at hc
  by_cases hdep : dep ∈ path
  · rw [if_pos hdep] at hc
    simp only [List.nil_append, List.mem_singleton] at hc
    subst hc
    obtain ⟨rest, hdw⟩ := dropWhile_head_eq dep path hdep
    unfold isCycleListB
    rw [Bool.and_eq_true]
    constructor
    · rw [hdw]; simp
    · have hchain2 : chainOKB g (path.dropWhile (fun x => decide (x ≠ dep))) = true :=
        chainOKB_dropWhile g _ path hchain
      have hlast : (path.dropWhile (fun x => decide (x ≠ dep))).getLastD ""
          = path.getLastD "" := by
        apply dropWhile_getLast_eq
        rw [hdw]
        simp
      rw [hdw] at hchain2 hlast
      unfold wrapPairs
      rw [hdw]
      exact wrap_all_of_chain g dep rest dep hchain2 (by rw [hlast]; exact hedge hdep)
  · rw [if_neg hdep] at hc
    simp at hc

theorem processDeps_sound (g : DependencyGraph)
    (dfs : String → List String → CycState → CycState)
    (hdfs : ∀ dep path st,
      chainOKB g (path ++ [dep]) = true →
      (g.packages.lookup dep).isSome = true →
      (∀ c ∈ st.cycles, isCycleListB g c = true) →
      (∀ c ∈ (dfs dep path st).cycles, isCycleListB g c = true)) :
    ∀ (deps : List String) (path : List String) (st : CycState),
      path ≠ [] →
      chainOKB g path = true →
      (∀ dep ∈ deps, (g.packages.lookup dep).isSome = true →
        edgeB g (path.getLastD "") dep = true) →
      (∀ c ∈ st.cycles, isCycleListB g c = true) →
      ∀ c ∈ (processDependenciesForCycles g dfs deps path st).cycles,
        isCycleListB g c = true := by
  intro deps
  induction deps with
  | nil => intro path st hne hchain hedges hcyc; exact hcyc
  | cons dep deps ih =>
    intro path st hne hchain hedges hcyc
    rw [show processDependenciesForCycles g dfs (dep :: deps) path st
        = processDependenciesForCycles g dfs deps path
          (if (g.packages.lookup dep).isNone then st
           else if dep ∉ st.visited then dfs dep path st
           else if dep ∈ st.recStack then
             { st with cycles := extractCycleFromPath dep path st.cycles }
           else st) from rfl]
    apply ih path _ hne hchain (fun d hd hs => hedges d (List.mem_cons_of_mem dep hd) hs)
    by_cases hk : (g.packages.lookup dep).isNone = true
    · rw [if_pos hk]
      exact hcyc
    · rw [if_neg hk]
      have hsome : (g.packages.lookup dep).isSome = true := by
        cases hq : g.packages.lookup dep with
        | none => rw [hq] at hk; exact absurd rfl hk
        | some v => rfl
      by_cases hv : dep ∉ st.visited
      · rw [if_pos hv]
        apply hdfs dep path st _ hsome hcyc
        exact chainOKB_snoc g path dep hne hchain (hedges dep (List.mem_cons_self dep deps) hsome)
      · rw [if_neg hv]
        by_cases hr : dep ∈ st.recStack
        · rw [if_pos hr]
          intro c hc
          unfold extractCycleFromPath at hc
          by_cases hdep : dep ∈ path
          · rw [if_pos hdep] at hc
            rw [List.mem_append] at hc
            rcases hc with h1 | h2
            · exact hcyc c h1
            · apply extractCycle_sound g dep path hchain
                (fun _ => hedges dep (List.mem_cons_self dep deps) hsome)
              unfold extractCycleFromPath
              rw [if_pos hdep]
              simpa using h2
          · rw [if_neg hdep] at hc
            exact hcyc c hc
        · rw [if_neg hr]
          exact hcyc

theorem dfs_sound (g : DependencyGraph) :
    ∀ (fuel : Nat) (node : String) (path : List String) (st : CycState),
      chainOKB g (path ++ [node]) = true →
      (g.packages.lookup node).isSome = true →
      (∀ c ∈ st.cycles, isCycleListB g c = true) →
      ∀ c ∈ (dfsForCycles g fuel node path st).cycles, isCycleListB g c = true := by
  intro fuel
  induction fuel with
  | zero => intro node path st hchain hkey hcyc; exact hcyc
  | succ fuel ih =>
    intro node path st hchain hkey hcyc
    simp only [dfsForCycles]
    cases hlk : g.packages.lookup node with
    | none => rw [hlk] at hkey; simp at hkey
    | some pkg =>
      dsimp only
      apply processDeps_sound g _ _ pkg.dependencies (path ++ [node]) _ (by simp) hchain
      · intro dep hdep hsome
        show edgeB g ((path ++ [node]).getLastD "") dep = true
        rw [show (path ++ [node]).getLastD "" = node from by
          rw [List.getLastD_eq_getLast?, List.getLast?_append_cons]
          rfl]
        unfold edgeB
        rw [hlk]
        rw [Bool.and_eq_true]
        exact ⟨by simpa using hdep, hsome⟩
      · exact hcyc
      · intro dep2 path2 st2 hch2 hkey2 hcyc2
        exact ih dep2 path2 st2 hch2 hkey2 hcyc2

theorem findAllCycles_sound (g : DependencyGraph) :
    ∀ c ∈ findAllCycles g, isCycleListB g c = true := by
  unfold findAllCycles
  have hgen : ∀ (keys : List String) (st : CycState),
      (∀ k ∈ keys, k ∈ g.packages.map Prod.fst) →
      (∀ c ∈ st.cycles, isCycleListB g c = true) →
      ∀ c ∈ (keys.foldl (fun st pkgPath =>
        if pkgPath ∉ st.visited then
          dfsForCycles g (g.packages.length + 1) pkgPath [] st
        else st) st).cycles, isCycleListB g c = true := by
    intro keys
    induction keys with
    | nil => intro st hk hcyc; exact hcyc
    | cons k keys ihk =>
      intro st hk hcyc
      rw [List.foldl_cons]
      apply ihk _ (fun k2 hk2 => hk k2 (List.mem_cons_of_mem k hk2))
      by_cases hv : k ∉ st.visited
      · rw [if_pos hv]
        apply dfs_sound g _ k [] st (by rfl)
        · rw [lookup_isSome_iff]
          exact hk k (List.mem_cons_self k keys)
        · exact hcyc
      · rw [if_neg hv]
        exact hcyc
  exact hgen (g.packages.map Prod.fst) ⟨[], [], []⟩ (fun k hk => hk) (by intro c hc; simp at hc)

theorem mem_detect_iff (g : DependencyGraph) (a b : String) :
    (a, b) ∈ detectCircularDependencies g
      ↔ ∃ c ∈ findAllCycles g, (a, b) ∈ wrapPairs c := by
  unfold detectCircularDependencies
  have hgen : ∀ (cys : List (List String)) (acc : List (String × String)),
      ((a, b) ∈ cys.foldl (fun acc cycle => acc ++ wrapPairs cycle) acc
        ↔ (a, b) ∈ acc ∨ ∃ c ∈ cys, (a, b) ∈ wrapPairs c) := by
    intro cys
    induction cys with
    | nil => intro acc; simp
    | cons c cys ihc =>
      intro acc
      rw [List.foldl_cons, ihc]
      rw [List.mem_append]
      constructor
      · rintro (⟨h1 | h2⟩ | ⟨c2, hc2, hm⟩)
        · exact Or.inl h1
        · exact Or.inr ⟨c, List.mem_cons_self c cys, h2⟩
        · exact Or.inr ⟨c2, List.mem_cons_of_mem c hc2, hm⟩
      · rintro (h1 | ⟨c2, hc2, hm⟩)
        · exact Or.inl (Or.inl h1)
        · rcases List.mem_cons.mp hc2 with h3 | h4
          · subst h3
            exact Or.inl (Or.inr hm)
          · exact Or.inr ⟨c2, h4, hm⟩
  rw [hgen (findAllCycles g) []]
  simp

theorem detect_sound (g : DependencyGraph) (a b : String)
    (h : (a, b) ∈ detectCircularDependencies g) : onCycleEdge g a b := by
  rw [mem_detect_iff] at h
  obtain ⟨c, hc, hm⟩ := h
  exact ⟨c, findAllCycles_sound g c hc, hm⟩

/-- Claim C5 (amended): the cycle detector's output is sound — every edge it
marks participates in at least one cycle of the graph — but it need not be
complete: it may miss edges that do participate in a cycle (see the
counterexample), so the O(1) lookup answering true guarantees a cycle through
the edge, while answering false does not guarantee its absence. -/
theorem C5_marked_edges_on_cycles (g : DependencyGraph) (a b : String)
    (h : (a, b) ∈ detectCircularDependencies g) : onCycleEdge g a b :=
  detect_sound g a b h

/-- Witness for C5 at the two-package cycle. -/
theorem C5_witness :
    onCycleEdge ⟨"m/a", [("m/a", ⟨"a", "m/a", ["m/b"], 1⟩),
      ("m/b", ⟨"b", "m/b", ["m/a"], 1⟩)], [], "m"⟩ "m/a" "m/b" :=
  C5_marked_edges_on_cycles _ "m/a" "m/b" (by decide)

/-! ## C2: the instrumented DFS projects onto the real one -/

theorem processDepsG_proj (g : DependencyGraph)
    (dfs : String → List String → CycStateG → CycStateG)
    (dfsc : String → List String → CycState → CycState)
    (hproj : ∀ dep p s, (dfs dep p s).toCyc = dfsc dep p s.toCyc) :
    ∀ (deps path : List String) (st : CycStateG),
      (processDepsG g dfs deps path st).toCyc
        = processDependenciesForCycles g dfsc deps path st.toCyc := by
  intro deps
  induction deps with
  | nil => intro path st; rfl
  | cons dep deps ih =>
    intro path st
    rw [show processDepsG g dfs (dep :: deps) path st
        = processDepsG g dfs deps path
          (if (g.packages.lookup dep).isNone then st
           else if dep ∉ st.visited then dfs dep path st
           else if dep ∈ st.recStack then
             { st with cycles := extractCycleFromPath dep path st.cycles }
           else st) from rfl]
    rw [show processDependenciesForCycles g dfsc (dep :: deps) path st.toCyc
        = processDependenciesForCycles g dfsc deps path
          (if (g.packages.lookup dep).isNone then st.toCyc
           else if dep ∉ st.toCyc.visited then dfsc dep path st.toCyc
           else if dep ∈ st.toCyc.recStack then
             { st.toCyc with cycles := extractCycleFromPath dep path st.toCyc.cycles }
           else st.toCyc) from rfl]
    rw [ih]
    congr 1
    by_cases hk : (g.packages.lookup dep).isNone = true
    · rw [if_pos hk, if_pos hk]
    · rw [if_neg hk, if_neg hk]
      by_cases hv : dep ∉ st.visited
      · rw [if_pos hv, if_pos (show dep ∉ st.toCyc.visited from hv)]
        exact hproj dep path st
      · rw [if_neg hv, if_neg (show ¬ dep ∉ st.toCyc.visited from hv)]
        by_cases hr : dep ∈ st.recStack
        · rw [if_pos hr, if_pos (show dep ∈ st.toCyc.recStack from hr)]
          rfl
        · rw [if_neg hr, if_neg (show ¬ dep ∈ st.toCyc.recStack from hr)]

theorem dfsG_proj (g : DependencyGraph) :
    ∀ (fuel : Nat) (node : String) (path : List String) (st : CycStateG),
      (dfsG g fuel node path st).toCyc = dfsForCycles g fuel node path st.toCyc := by
  intro fuel
  induction fuel with
  | zero => intro node path st; rfl
  | succ fuel ih =>
    intro node path st
    cases hlk : g.packages.lookup node with
    | none =>
      simp only [dfsG, dfsForCycles, hlk]
      rfl
    | some pkg =>
      simp only [dfsG, dfsForCycles, hlk]
      have h := processDepsG_proj g (fun dep p s => dfsG g fuel dep p s)
        (fun dep p s => dfsForCycles g fuel dep p s) (fun dep p s => ih dep p s)
        pkg.dependencies (path ++ [node])
        ⟨node :: st.visited, node :: st.recStack, st.cycles, st.fin⟩
      exact congrArg (fun s : CycState =>
        (⟨s.visited, s.recStack.erase node, s.cycles⟩ : CycState)) h

theorem findAllCyclesG_proj (g : DependencyGraph) :
    (findAllCyclesG g).cycles = findAllCycles g := by
  unfold findAllCyclesG findAllCycles
  have hgen : ∀ (keys : List String) (st : CycStateG),
      (keys.foldl (fun st pkgPath =>
        if pkgPath ∉ st.visited then dfsG g (g.packages.length + 1) pkgPath [] st
        else st) st).toCyc
      = keys.foldl (fun st pkgPath =>
        if pkgPath ∉ st.visited then dfsForCycles g (g.packages.length + 1) pkgPath [] st
        else st) st.toCyc := by
    intro keys
    induction keys with
    | nil => intro st; rfl
    | cons k keys ihk =>
      intro st
      rw [List.foldl_cons, List.foldl_cons, ihk]
      congr 1
      by_cases hv : k ∉ st.visited
      · rw [if_pos hv, if_pos (show k ∉ st.toCyc.visited from hv)]
        exact dfsG_proj g _ k [] st
      · rw [if_neg hv, if_neg (show ¬ k ∉ st.toCyc.visited from hv)]
  exact congrArg CycState.cycles (hgen (keysOf g) ⟨[], [], [], []⟩)

/-! ## C2: basic lemmas about the ghost state -/

theorem gstepRefl (st : CycStateG) : GStep st st :=
  ⟨fun _ h => h, ⟨[], (List.append_nil _).symm⟩, ⟨[], (List.append_nil _).symm⟩, rfl⟩

theorem gstepTrans {s1 s2 s3 : CycStateG} (h1 : GStep s1 s2) (h2 : GStep s2 s3) :
    GStep s1 s3 := by
  obtain ⟨v1, ⟨t1, f1⟩, ⟨c1, c1e⟩, r1⟩ := h1
  obtain ⟨v2, ⟨t2, f2⟩, ⟨c2, c2e⟩, r2⟩ := h2
  exact ⟨fun x hx => v2 x (v1 x hx), ⟨t1 ++ t2, by rw [f2, f1, List.append_assoc]⟩,
    ⟨c1 ++ c2, by rw [c2e, c1e, List.append_assoc]⟩, by rw [r2, r1]⟩

theorem posIn_append_mem (l1 l2 : List String) (x : String) (hx : x ∈ l1) :
    posIn (l1 ++ l2) x = posIn l1 x := by
  induction l1 with
  | nil => simp at hx
  | cons y ys ih =>
    rw [List.cons_append]
    unfold posIn
    by_cases hy : y = x
    · rw [if_pos hy, if_pos hy]
    · rw [if_neg hy, if_neg hy,
        ih (by rcases List.mem_cons.mp hx with h | h
               · exact absurd h.symm hy
               · exact h)]

theorem posIn_append_self (l1 : List String) (x : String) (hx : x ∉ l1) :
    posIn (l1 ++ [x]) x = l1.length := by
  induction l1 with
  | nil => simp [posIn]
  | cons y ys ih =>
    rw [List.cons_append]
    unfold posIn
    rw [if_neg (fun h => hx (by rw [← h]; exact List.mem_cons_self y ys))]
    rw [ih (fun h => hx (List.mem_cons_of_mem y h))]
    rfl

theorem posIn_lt_length (l : List String) (x : String) (hx : x ∈ l) :
    posIn l x < l.length := by
  induction l with
  | nil => simp at hx
  | cons y ys ih =>
    unfold posIn
    by_cases hy : y = x
    · rw [if_pos hy]
      simp
    · rw [if_neg hy]
      have : x ∈ ys := by
        rcases List.mem_cons.mp hx with h | h
        · exact absurd h.symm hy
        · exact h
      simpa using ih this

theorem filter_length_le_of_imp (p q : String → Bool) :
    ∀ l : List String, (∀ x ∈ l, p x = true → q x = true) →
      (l.filter p).length ≤ (l.filter q).length := by
  intro l
  induction l with
  | nil => intro _; exact Nat.le_refl 0
  | cons y ys ih =>
    intro h
    have ih2 := ih (fun x hx => h x (List.mem_cons_of_mem y hx))
    by_cases hp : p y = true
    · rw [List.filter_cons_of_pos hp, List.filter_cons_of_pos (h y (List.mem_cons_self y ys) hp)]
      simpa using ih2
    · rw [List.filter_cons_of_neg (by simpa using hp)]
      refine Nat.le_trans ih2 ?_
      by_cases hq : q y = true
      · rw [List.filter_cons_of_pos hq]
        simp
      · rw [List.filter_cons_of_neg (by simpa using hq)]

theorem unvisitedCount_mono (g : DependencyGraph) (st st2 : CycStateG)
    (h : ∀ x ∈ st.visited, x ∈ st2.visited) :
    unvisitedCount g st2 ≤ unvisitedCount g st := by
  unfold unvisitedCount
  apply filter_length_le_of_imp
  intro x _ hx
  simp only [decide_eq_true_eq] at hx ⊢
  intro hmem
  exact hx (h x hmem)

theorem filter_length_lt_cons (node : String) :
    ∀ (l vis : List String), node ∈ l → node ∉ vis →
      (l.filter (fun x => decide (x ∉ node :: vis))).length
        < (l.filter (fun x => decide (x ∉ vis))).length := by
  intro l
  induction l with
  | nil => intro vis h _; simp at h
  | cons y ys ih =>
    intro vis hm hv
    by_cases hyn : y = node
    · subst hyn
      rw [List.filter_cons_of_neg (by simp), List.filter_cons_of_pos (by simpa using hv)]
      have := filter_length_le_of_imp (fun x => decide (x ∉ y :: vis))
        (fun x => decide (x ∉ vis)) ys
        (by intro x _ hx
            simp only [decide_eq_true_eq, List.mem_cons, not_or] at hx ⊢
            exact hx.2)
      simpa using Nat.lt_succ_of_le this
    · have hm2 : node ∈ ys := by
        rcases List.mem_cons.mp hm with h | h
        · exact absurd h.symm hyn
        · exact h
      by_cases hyv : y ∈ vis
      · rw [List.filter_cons_of_neg (by simp [hyv]),
          List.filter_cons_of_neg (by simp [hyv])]
        exact ih vis hm2 hv
      · rw [List.filter_cons_of_pos (by simp [hyv, hyn]),
          List.filter_cons_of_pos (by simpa using hyv)]
        simpa using ih vis hm2 hv

theorem unvisitedCount_push_lt (g : DependencyGraph) (st : CycStateG) (node : String)
    (hk : node ∈ keysOf g) (hv : node ∉ st.visited) (rs2 : List String)
    (cyc2 : List (List String)) (fin2 : List String) :
    unvisitedCount g ⟨node :: st.visited, rs2, cyc2, fin2⟩ < unvisitedCount g st :=
  filter_length_lt_cons node (keysOf g) st.visited hk hv

theorem unvisitedCount_le_keys (g : DependencyGraph) (st : CycStateG) :
    unvisitedCount g st ≤ g.packages.length := by
  unfold unvisitedCount
  have := List.length_filter_le (fun x => decide (x ∉ st.visited)) (keysOf g)
  simpa [keysOf] using this

theorem gstep_fin_mem {s s2 : CycStateG} (h : GStep s s2) {x : String}
    (hx : x ∈ s.fin) : x ∈ s2.fin := by
  obtain ⟨t, ht⟩ := h.finpre
  rw [ht]
  exact List.mem_append_left t hx

theorem gstep_marked {s s2 : CycStateG} (h : GStep s s2) {a b : String}
    (hm : markedIn s.cycles a b) : markedIn s2.cycles a b := by
  obtain ⟨t, ht⟩ := h.cycpre
  obtain ⟨c, hc, hp⟩ := hm
  exact ⟨c, by rw [ht]; exact List.mem_append_left t hc, hp⟩

theorem wrap_last_head (first : String) :
    ∀ (l : List String) (a : String),
      ((a :: l).getLastD "", first) ∈ (a :: l).zip (l ++ [first]) := by
  intro l
  induction l with
  | nil => intro a; simp [List.getLastD]
  | cons b bs ih =>
    intro a
    rw [getLastD_cons_ne a "" (b :: bs) (by simp), List.cons_append, List.zip_cons_cons]
    exact List.mem_cons_of_mem _ (ih b)

/-- One processed dependency list preserves the DFS invariants and, for each
dependency that is a key, either marks the edge from the current node to it
or finds it already finished. -/
theorem processDepsG_main (g : DependencyGraph) (fuel : Nat) (node : String)
    (dfs : String → List String → CycStateG → CycStateG)
    (hdfs : ∀ dep p s, dep ∈ keysOf g → dep ∉ s.visited →
      unvisitedCount g s < fuel → GInv g s → s.recStack = p.reverse →
      GStep s (dfs dep p s) ∧ GInv g (dfs dep p s) ∧ dep ∈ (dfs dep p s).fin) :
    ∀ (deps path : List String) (st : CycStateG),
      unvisitedCount g st < fuel →
      GInv g st →
      st.recStack = path.reverse →
      path.getLastD "" = node →
      GStep st (processDepsG g dfs deps path st)
      ∧ GInv g (processDepsG g dfs deps path st)
      ∧ ∀ dep ∈ deps, (g.packages.lookup dep).isSome = true →
          markedIn (processDepsG g dfs deps path st).cycles node dep
          ∨ dep ∈ (processDepsG g dfs deps path st).fin := by
  intro deps
  induction deps with
  | nil =>
    intro path st hmeas hinv hrs hlast
    exact ⟨gstepRefl st, hinv, by intro dep hdep; simp at hdep⟩
  | cons dep deps ih =>
    intro path st hmeas hinv hrs hlast
    rw [show processDepsG g dfs (dep :: deps) path st
        = processDepsG g dfs deps path
          (if (g.packages.lookup dep).isNone then st
           else if dep ∉ st.visited then dfs dep path st
           else if dep ∈ st.recStack then
             { st with cycles := extractCycleFromPath dep path st.cycles }
           else st) from rfl]
    have hmain : ∀ mid : CycStateG,
        GStep st mid → GInv g mid →
        ((g.packages.lookup dep).isSome = true →
          markedIn mid.cycles node dep ∨ dep ∈ mid.fin) →
        GStep st (processDepsG g dfs deps path mid)
        ∧ GInv g (processDepsG g dfs deps path mid)
        ∧ ∀ d ∈ dep :: deps, (g.packages.lookup d).isSome = true →
            markedIn (processDepsG g dfs deps path mid).cycles node d
            ∨ d ∈ (processDepsG g dfs deps path mid).fin := by
      intro mid hstep1 hinv1 hdone1
      have hmeas2 : unvisitedCount g mid < fuel :=
        Nat.lt_of_le_of_lt (unvisitedCount_mono g st mid hstep1.vis) hmeas
      have hrs2 : mid.recStack = path.reverse := by rw [hstep1.rs, hrs]
      obtain ⟨hstep2, hinv2, hdone2⟩ := ih path mid hmeas2 hinv1 hrs2 hlast
      refine ⟨gstepTrans hstep1 hstep2, hinv2, ?_⟩
      intro d hd hs
      rcases List.mem_cons.mp hd with h | h
      · subst h
        rcases hdone1 hs with hmk | hfn
        · exact Or.inl (gstep_marked hstep2 hmk)
        · exact Or.inr (gstep_fin_mem hstep2 hfn)
      · exact hdone2 d h hs
    by_cases hk : (g.packages.lookup dep).isNone = true
    · rw [if_pos hk]
      refine hmain st (gstepRefl st) hinv ?_
      intro hs
      rw [Option.isNone_iff_eq_none] at hk
      rw [hk] at hs
      simp at hs
    · rw [if_neg hk]
      have hsome : (g.packages.lookup dep).isSome = true := by
        cases hq : g.packages.lookup dep with
        | none => rw [hq] at hk; exact absurd rfl hk
        | some v => rfl
      have hdk : dep ∈ keysOf g := by
        rw [lookup_isSome_iff] at hsome
        exact hsome
      have hsome2 : (g.packages.lookup dep).isSome = true := by
        rw [lookup_isSome_iff]
        exact hdk
      by_cases hv : dep ∉ st.visited
      · rw [if_pos hv]
        obtain ⟨hs1, hi1, hf1⟩ := hdfs dep path st hdk hv hmeas hinv hrs
        exact hmain _ hs1 hi1 (fun _ => Or.inr hf1)
      · rw [if_neg hv]
        by_cases hr : dep ∈ st.recStack
        · rw [if_pos hr]
          have hdp : dep ∈ path := by
            rw [hrs] at hr
            exact List.mem_reverse.mp hr
          have hcyceq : extractCycleFromPath dep path st.cycles
              = st.cycles ++ [path.dropWhile (fun x => decide (x ≠ dep))] := by
            unfold extractCycleFromPath
            rw [if_pos hdp]
          have hstepm : GStep st { st with cycles := extractCycleFromPath dep path st.cycles } :=
            ⟨fun _ h => h, ⟨[], (List.append_nil _).symm⟩,
             ⟨[path.dropWhile (fun x => decide (x ≠ dep))], hcyceq⟩, rfl⟩
          refine hmain _ hstepm
            ⟨hinv.vk, hinv.part, hinv.disj, hinv.nodupF, ?_⟩ ?_
          · intro u v hu he
            rcases hinv.finOK u v hu he with hmk | hlt
            · exact Or.inl (gstep_marked hstepm hmk)
            · exact Or.inr hlt
          · intro _
            obtain ⟨rest, hdw⟩ := dropWhile_head_eq dep path hdp
            refine Or.inl ⟨path.dropWhile (fun x => decide (x ≠ dep)), ?_, ?_⟩
            · rw [hcyceq]
              exact List.mem_append_right _ (List.mem_singleton.mpr rfl)
            · have hgl : (path.dropWhile (fun x => decide (x ≠ dep))).getLastD ""
                  = path.getLastD "" := by
                apply dropWhile_getLast_eq
                rw [hdw]
                simp
              rw [hdw]
              unfold wrapPairs
              have := wrap_last_head dep rest dep
              rw [hdw] at hgl
              rw [hgl, hlast] at this
              exact this
        · rw [if_neg hr]
          refine hmain st (gstepRefl st) hinv ?_
          intro _
          have hvis : dep ∈ st.visited := by
            by_contra h
            exact hv h
          rcases (hinv.part dep).mp hvis with hf | hrr
          · exact Or.inr hf
          · exact absurd hrr hr

theorem dfsG_eq (g : DependencyGraph) (fuel : Nat) (node : String) (path : List String)
    (st : CycStateG) (pkg : PackageInfo) (hlk : g.packages.lookup node = some pkg) :
    ∃ st2, st2 = processDepsG g (fun dep p s => dfsG g fuel dep p s) pkg.dependencies
        (path ++ [node]) ⟨node :: st.visited, node :: st.recStack, st.cycles, st.fin⟩
      ∧ dfsG g (fuel + 1) node path st
        = ⟨st2.visited, st2.recStack.erase node, st2.cycles, st2.fin ++ [node]⟩ := by
  refine ⟨_, rfl, ?_⟩
  simp only [dfsG, hlk]

/-- One full DFS call preserves the invariants and finishes its node. -/
theorem dfsG_main (g : DependencyGraph) :
    ∀ (fuel : Nat) (node : String) (path : List String) (st : CycStateG),
      node ∈ keysOf g →
      node ∉ st.visited →
      unvisitedCount g st < fuel →
      GInv g st →
      st.recStack = path.reverse →
      GStep st (dfsG g fuel node path st)
      ∧ GInv g (dfsG g fuel node path st)
      ∧ node ∈ (dfsG g fuel node path st).fin := by
  intro fuel
  induction fuel with
  | zero =>
    intro node path st hk hv hmeas hinv hrs
    exact absurd hmeas (Nat.not_lt_zero _)
  | succ fuel ih =>
    intro node path st hk hv hmeas hinv hrs
    have hsome : (g.packages.lookup node).isSome = true := by
      rw [lookup_isSome_iff]
      exact hk
    cases hlk : g.packages.lookup node with
    | none => rw [hlk] at hsome; simp at hsome
    | some pkg =>
      obtain ⟨st2, hst2, heq⟩ := dfsG_eq g fuel node path st pkg hlk
      have hnfin : node ∉ st.fin := fun h => hv ((hinv.part node).mpr (Or.inl h))
      have hnrs : node ∉ st.recStack := fun h => hv ((hinv.part node).mpr (Or.inr h))
      have hinv1 : GInv g ⟨node :: st.visited, node :: st.recStack, st.cycles, st.fin⟩ := by
        refine ⟨?_, ?_, ?_, hinv.nodupF, hinv.finOK⟩
        · intro x hx
          rcases List.mem_cons.mp hx with h | h
          · rw [h]; exact hk
          · exact hinv.vk x h
        · intro x
          constructor
          · intro hx
            rcases List.mem_cons.mp hx with h | h
            · exact Or.inr (by rw [h]; exact List.mem_cons_self node st.recStack)
            · rcases (hinv.part x).mp h with hf | hr
              · exact Or.inl hf
              · exact Or.inr (List.mem_cons_of_mem node hr)
          · intro hx
            rcases hx with hf | hr
            · exact List.mem_cons_of_mem node ((hinv.part x).mpr (Or.inl hf))
            · rcases List.mem_cons.mp hr with h | h
              · rw [h]; exact List.mem_cons_self node st.visited
              · exact List.mem_cons_of_mem node ((hinv.part x).mpr (Or.inr h))
        · intro x hx
          intro hxr
          rcases List.mem_cons.mp hxr with h | h
          · rw [h] at hx; exact hnfin hx
          · exact hinv.disj x hx h
      have hmeas1 : unvisitedCount g
          ⟨node :: st.visited, node :: st.recStack, st.cycles, st.fin⟩ < fuel := by
        have h1 := unvisitedCount_push_lt g st node hk hv
          (node :: st.recStack) st.cycles st.fin
        omega
      have hrs1 : (⟨node :: st.visited, node :: st.recStack, st.cycles, st.fin⟩
          : CycStateG).recStack = (path ++ [node]).reverse := by
        show node :: st.recStack = (path ++ [node]).reverse
        rw [hrs, List.reverse_append]
        rfl
      have hlast1 : (path ++ [node]).getLastD "" = node := by
        rw [List.getLastD_eq_getLast?, List.getLast?_append_cons]
        rfl
      obtain ⟨hstep2, hinv2, hdone⟩ := processDepsG_main g fuel node
        (fun dep p s => dfsG g fuel dep p s)
        (fun dep p s hk2 hv2 hm2 hi2 hr2 => ih dep p s hk2 hv2 hm2 hi2 hr2)
        pkg.dependencies (path ++ [node])
        ⟨node :: st.visited, node :: st.recStack, st.cycles, st.fin⟩ hmeas1 hinv1 hrs1 hlast1
      rw [← hst2] at hstep2 hinv2 hdone
      have hrs2 : st2.recStack = node :: st.recStack := hstep2.rs
      have hnrs2 : node ∈ st2.recStack := by
        rw [hrs2]
        exact List.mem_cons_self node st.recStack
      have hnf2 : node ∉ st2.fin := fun h => hinv2.disj node h hnrs2
      have herase : st2.recStack.erase node = st.recStack := by
        rw [hrs2]
        exact List.erase_cons_head node st.recStack
      rw [heq, herase]
      refine ⟨?_, ?_, ?_⟩
      · refine ⟨?_, ?_, ?_, rfl⟩
        · intro x hx
          exact hstep2.vis x (List.mem_cons_of_mem node hx)
        · obtain ⟨t, ht⟩ := hstep2.finpre
          exact ⟨t ++ [node], by
            show st2.fin ++ [node] = st.fin ++ (t ++ [node])
            rw [← List.append_assoc, ← ht]⟩
        · obtain ⟨t, ht⟩ := hstep2.cycpre
          exact ⟨t, ht⟩
      · refine ⟨hinv2.vk, ?_, ?_, ?_, ?_⟩
        · intro x
          show x ∈ st2.visited ↔ x ∈ st2.fin ++ [node] ∨ x ∈ st.recStack
          constructor
          · intro hx
            rcases (hinv2.part x).mp hx with hf | hr
            · exact Or.inl (List.mem_append_left _ hf)
            · rw [hrs2] at hr
              rcases List.mem_cons.mp hr with h | h
              · exact Or.inl (List.mem_append_right _
                  (by rw [h]; exact List.mem_singleton.mpr rfl))
              · exact Or.inr h
          · intro hx
            rcases hx with hf | hr
            · rcases List.mem_append.mp hf with h | h
              · exact (hinv2.part x).mpr (Or.inl h)
              · rw [List.mem_singleton.mp h]
                exact (hinv2.part node).mpr (Or.inr hnrs2)
            · exact (hinv2.part x).mpr
                (Or.inr (by rw [hrs2]; exact List.mem_cons_of_mem node hr))
        · intro x hx hxr
          rcases List.mem_append.mp hx with h | h
          · exact hinv2.disj x h (by rw [hrs2]; exact List.mem_cons_of_mem node hxr)
          · rw [List.mem_singleton.mp h] at hxr
            exact hnrs hxr
        · refine List.Nodup.append hinv2.nodupF (List.nodup_singleton node) ?_
          intro a ha hb
          rw [List.mem_singleton.mp hb] at ha
          exact hnf2 ha
        · intro u v hu he
          rcases List.mem_append.mp hu with hu2 | hu2
          · rcases hinv2.finOK u v hu2 he with hmk | ⟨hvf, hlt⟩
            · exact Or.inl hmk
            · refine Or.inr ⟨List.mem_append_left _ hvf, ?_⟩
              rw [posIn_append_mem st2.fin [node] v hvf, posIn_append_mem st2.fin [node] u hu2]
              exact hlt
          · rw [List.mem_singleton.mp hu2] at he ⊢
            unfold edgeB at he
            rw [hlk] at he
            rw [Bool.and_eq_true] at he
            have hvdep : v ∈ pkg.dependencies := by
              have := he.1
              simpa using this
            rcases hdone v hvdep he.2 with hmk | hvf
            · exact Or.inl hmk
            · refine Or.inr ⟨List.mem_append_left _ hvf, ?_⟩
              rw [posIn_append_mem st2.fin [node] v hvf, posIn_append_self st2.fin node hnf2]
              exact posIn_lt_length st2.fin v hvf
      · exact List.mem_append_right _ (List.mem_singleton.mpr rfl)

/-- After the instrumented full detection, the invariants hold and every key
is finished. -/
theorem findAllCyclesG_main (g : DependencyGraph) :
    GInv g (findAllCyclesG g) ∧ ∀ k ∈ keysOf g, k ∈ (findAllCyclesG g).fin := by
  have hgen : ∀ (keys : List String) (st : CycStateG),
      (∀ k ∈ keys, k ∈ keysOf g) → GInv g st → st.recStack = [] →
      GInv g (keys.foldl (fun st pkgPath =>
          if pkgPath ∉ st.visited then dfsG g (g.packages.length + 1) pkgPath [] st
          else st) st)
      ∧ (keys.foldl (fun st pkgPath =>
          if pkgPath ∉ st.visited then dfsG g (g.packages.length + 1) pkgPath [] st
          else st) st).recStack = []
      ∧ GStep st (keys.foldl (fun st pkgPath =>
          if pkgPath ∉ st.visited then dfsG g (g.packages.length + 1) pkgPath [] st
          else st) st)
      ∧ ∀ k ∈ keys, k ∈ (keys.foldl (fun st pkgPath =>
          if pkgPath ∉ st.visited then dfsG g (g.packages.length + 1) pkgPath [] st
          else st) st).fin := by
    intro keys
    induction keys with
    | nil =>
      intro st hk hinv hrs
      exact ⟨hinv, hrs, gstepRefl st, by intro k hk2; simp at hk2⟩
    | cons k keys ihk =>
      intro st hk hinv hrs
      rw [List.foldl_cons]
      have hmain : ∀ mid : CycStateG, GStep st mid → GInv g mid →
          mid.recStack = [] → k ∈ mid.fin →
          GInv g (keys.foldl (fun st pkgPath =>
              if pkgPath ∉ st.visited then dfsG g (g.packages.length + 1) pkgPath [] st
              else st) mid)
          ∧ (keys.foldl (fun st pkgPath =>
              if pkgPath ∉ st.visited then dfsG g (g.packages.length + 1) pkgPath [] st
              else st) mid).recStack = []
          ∧ GStep st (keys.foldl (fun st pkgPath =>
              if pkgPath ∉ st.visited then dfsG g (g.packages.length + 1) pkgPath [] st
              else st) mid)
          ∧ ∀ k2 ∈ k :: keys, k2 ∈ (keys.foldl (fun st pkgPath =>
              if pkgPath ∉ st.visited then dfsG g (g.packages.length + 1) pkgPath [] st
              else st) mid).fin := by
        intro mid hstep1 hinv1 hrs1 hkf
        obtain ⟨hi2, hr2, hs2, hf2⟩ := ihk mid
          (fun k2 hk2 => hk k2 (List.mem_cons_of_mem k hk2)) hinv1 hrs1
        refine ⟨hi2, hr2, gstepTrans hstep1 hs2, ?_⟩
        intro k2 hk2
        rcases List.mem_cons.mp hk2 with h | h
        · rw [h]
          exact gstep_fin_mem hs2 hkf
        · exact hf2 k2 h
      by_cases hv : k ∉ st.visited
      · rw [if_pos hv]
        have hmeas : unvisitedCount g st < g.packages.length + 1 :=
          Nat.lt_succ_of_le (unvisitedCount_le_keys g st)
        obtain ⟨hs1, hi1, hf1⟩ := dfsG_main g (g.packages.length + 1) k [] st
          (hk k (List.mem_cons_self k keys)) hv hmeas hinv (by rw [hrs]; rfl)
        exact hmain _ hs1 hi1 (by rw [hs1.rs]; exact hrs) hf1
      · rw [if_neg hv]
        have hkvis : k ∈ st.visited := by
          by_contra h
          exact hv h
        have hkf : k ∈ st.fin := by
          rcases (hinv.part k).mp hkvis with hf | hr
          · exact hf
          · rw [hrs] at hr
            simp at hr
        exact hmain st (gstepRefl st) hinv hrs hkf
  have hinit : GInv g (⟨[], [], [], []⟩ : CycStateG) := by
    refine ⟨?_, ?_, ?_, List.nodup_nil, ?_⟩
    · intro x hx; simp at hx
    · intro x; simp
    · intro x hx; simp at hx
    · intro u v hu; simp at hu
  obtain ⟨hi, _, _, hf⟩ := hgen (keysOf g) ⟨[], [], [], []⟩ (fun _ h => h) hinit rfl
  exact ⟨hi, hf⟩

/-- The DFS finish order: every key finishes exactly once, and every edge
between keys is either marked as circular or points to a strictly
earlier-finished node. -/
theorem detect_order (g : DependencyGraph) :
    ∃ F : List String, F.Nodup ∧ (∀ k, k ∈ F ↔ k ∈ keysOf g)
    ∧ ∀ u v, edgeB g u v = true →
        (u, v) ∈ detectCircularDependencies g ∨ posIn F v < posIn F u := by
  obtain ⟨hinv, hall⟩ := findAllCyclesG_main g
  refine ⟨(findAllCyclesG g).fin, hinv.nodupF, ?_, ?_⟩
  · intro k
    constructor
    · intro hkf
      exact hinv.vk k ((hinv.part k).mpr (Or.inl hkf))
    · intro hk
      exact hall k hk
  · intro u v he
    have hu : u ∈ keysOf g := by
      have hus : (g.packages.lookup u).isSome = true := by
        unfold edgeB at he
        cases hq : g.packages.lookup u with
        | none => rw [hq] at he; simp at he
        | some info => rfl
      rw [lookup_isSome_iff] at hus
      exact hus
    have huf : u ∈ (findAllCyclesG g).fin := hall u hu
    rcases hinv.finOK u v huf he with hmk | ⟨_, hlt⟩
    · left
      obtain ⟨c, hc, hp⟩ := hmk
      rw [mem_detect_iff]
      exact ⟨c, by rw [← findAllCyclesG_proj]; exact hc, hp⟩
    · right
      exact hlt

/-! ## C2: the layer map update and the sorted key order -/

theorem setL_lookup_self : ∀ (m : List (String × Int)) (k : String) (v : Int),
    (setL m k v).lookup k = some v := by
  intro m
  induction m with
  | nil =>
    intro k v
    show List.lookup k [(k, v)] = some v
    rw [List.lookup]
    simp
  | cons pr rest ih =>
    obtain ⟨k2, v2⟩ := pr
    intro k v
    show List.lookup k (if k2 = k then (k2, v) :: rest else (k2, v2) :: setL rest k v)
      = some v
    by_cases hk : k2 = k
    · rw [if_pos hk, hk, List.lookup]
      simp
    · rw [if_neg hk, List.lookup,
        show (k == k2) = false from beq_eq_false_iff_ne.mpr (fun h => hk h.symm)]
      exact ih k v

theorem setL_lookup_other : ∀ (m : List (String × Int)) (k k2 : String) (v : Int),
    k2 ≠ k → (setL m k v).lookup k2 = m.lookup k2 := by
  intro m
  induction m with
  | nil =>
    intro k k2 v hne
    show List.lookup k2 [(k, v)] = List.lookup k2 []
    rw [List.lookup, List.lookup,
      show (k2 == k) = false from beq_eq_false_iff_ne.mpr hne]
    rfl
  | cons pr rest ih =>
    obtain ⟨k3, v3⟩ := pr
    intro k k2 v hne
    show List.lookup k2 (if k3 = k then (k3, v) :: rest else (k3, v3) :: setL rest k v)
      = List.lookup k2 ((k3, v3) :: rest)
    by_cases hk : k3 = k
    · rw [if_pos hk]
      by_cases h2 : k2 = k3
      · exact absurd (h2.trans hk) hne
      · rw [List.lookup, List.lookup,
          show (k2 == k3) = false from beq_eq_false_iff_ne.mpr h2]
    · rw [if_neg hk]
      by_cases h2 : k2 = k3
      · rw [h2, List.lookup, List.lookup]
        simp
      · rw [List.lookup, List.lookup,
          show (k2 == k3) = false from beq_eq_false_iff_ne.mpr h2]
        exact ih k k2 v hne

theorem setL_noop : ∀ (m : List (String × Int)) (k : String) (v : Int),
    m.lookup k = some v → setL m k v = m := by
  intro m
  induction m with
  | nil =>
    intro k v h
    exact absurd h (by rw [List.lookup]; simp)
  | cons pr rest ih =>
    obtain ⟨k2, v2⟩ := pr
    intro k v h
    show (if k2 = k then (k2, v) :: rest else (k2, v2) :: setL rest k v) = (k2, v2) :: rest
    by_cases hk : k2 = k
    · rw [if_pos hk]
      have : v2 = v := by
        rw [List.lookup, show (k == k2) = true from beq_iff_eq.mpr hk.symm] at h
        exact Option.some.inj h
      rw [this]
    · rw [if_neg hk]
      rw [List.lookup, show (k == k2) = false from
        beq_eq_false_iff_ne.mpr (fun h2 => hk h2.symm)] at h
      rw [ih k v h]

theorem setL_isSome (m : List (String × Int)) (k x : String) (v : Int)
    (h : (m.lookup x).isSome = true) : ((setL m k v).lookup x).isSome = true := by
  by_cases hx : x = k
  · rw [hx, setL_lookup_self]
    rfl
  · rw [setL_lookup_other m k x v hx]
    exact h

theorem lookup_mem {β : Type} : ∀ (l : List (String × β)) (k : String) (b : β),
    l.lookup k = some b → (k, b) ∈ l := by
  intro l
  induction l with
  | nil =>
    intro k b h
    exact absurd h (by rw [List.lookup]; simp)
  | cons pr rest ih =>
    obtain ⟨k2, v2⟩ := pr
    intro k b h
    rw [List.lookup] at h
    by_cases hk : k = k2
    · rw [show (k == k2) = true from beq_iff_eq.mpr hk] at h
      have hb : v2 = b := Option.some.inj h
      rw [← hk, hb] at *
      exact List.mem_cons_self _ _
    · rw [show (k == k2) = false from beq_eq_false_iff_ne.mpr hk] at h
      exact List.mem_cons_of_mem _ (ih k b h)

theorem lookup_of_mem_nodup {β : Type} :
    ∀ (l : List (String × β)), (l.map Prod.fst).Nodup →
      ∀ (k : String) (b : β), (k, b) ∈ l → l.lookup k = some b := by
  intro l
  induction l with
  | nil =>
    intro _ k b h
    simp at h
  | cons pr rest ih =>
    obtain ⟨k2, v2⟩ := pr
    intro hnd k b h
    rw [List.map_cons, List.nodup_cons] at hnd
    rcases List.mem_cons.mp h with h1 | h1
    · have hk : k = k2 := congrArg Prod.fst h1
      have hb : b = v2 := congrArg Prod.snd h1
      rw [List.lookup, show (k == k2) = true from beq_iff_eq.mpr hk, hb]
    · have hk : k ≠ k2 := by
        intro he
        apply hnd.1
        rw [← he]
        exact List.mem_map.mpr ⟨(k, b), h1, rfl⟩
      rw [List.lookup, show (k == k2) = false from beq_eq_false_iff_ne.mpr hk]
      exact ih hnd.2 k b h1

theorem insertSorted_perm (x : String) :
    ∀ l : List String, List.Perm (insertSorted x l) (x :: l) := by
  intro l
  induction l with
  | nil => exact List.Perm.refl _
  | cons y ys ih =>
    show List.Perm (if charListLe x.toList y.toList then x :: y :: ys
      else y :: insertSorted x ys) (x :: y :: ys)
    by_cases hc : charListLe x.toList y.toList = true
    · rw [if_pos hc]
    · rw [if_neg hc]
      exact List.Perm.trans (List.Perm.cons y ih) (List.Perm.swap x y ys)

theorem sortStrings_perm : ∀ l : List String, List.Perm (sortStrings l) l := by
  intro l
  induction l with
  | nil => exact List.Perm.refl _
  | cons x xs ih =>
    show List.Perm (insertSorted x (sortStrings xs)) (x :: xs)
    exact List.Perm.trans (insertSorted_perm x (sortStrings xs)) (List.Perm.cons x ih)

theorem theKs_mem (g : DependencyGraph) (x : String) : x ∈ theKs g ↔ x ∈ keysOf g :=
  (sortStrings_perm (keysOf g)).mem_iff

theorem theKs_nodup (g : DependencyGraph) (hnd : (keysOf g).Nodup) : (theKs g).Nodup :=
  ((sortStrings_perm (keysOf g)).nodup_iff).mpr hnd

/-! ## C2: one layer pass as an unconditional fold -/

theorem foldMPass_append (g : DependencyGraph) (rev : String → List String)
    (l1 l2 : List String) (m : List (String × Int)) :
    foldMPass g rev (l1 ++ l2) m = foldMPass g rev l2 (foldMPass g rev l1 m) := by
  unfold foldMPass
  rw [List.foldl_append]

theorem foldMPass_lookup_not_mem (g : DependencyGraph) (rev : String → List String) :
    ∀ (l : List String) (m : List (String × Int)) (q : String), q ∉ l →
      (foldMPass g rev l m).lookup q = m.lookup q := by
  intro l
  induction l with
  | nil => intro m q _; rfl
  | cons p l ih =>
    intro m q h
    show (foldMPass g rev l (setL m p (calculateOptimalLayer g p m rev))).lookup q
      = m.lookup q
    rw [ih _ q (fun h2 => h (List.mem_cons_of_mem p h2)),
      setL_lookup_other _ p q _ (fun h2 => h (by rw [h2]; exact List.mem_cons_self p l))]

theorem foldMPass_isSome (g : DependencyGraph) (rev : String → List String) :
    ∀ (l : List String) (m : List (String × Int)) (x : String),
      (m.lookup x).isSome = true → ((foldMPass g rev l m).lookup x).isSome = true := by
  intro l
  induction l with
  | nil => intro m x h; exact h
  | cons p l ih =>
    intro m x h
    show ((foldMPass g rev l (setL m p (calculateOptimalLayer g p m rev))).lookup x).isSome
      = true
    exact ih _ x (setL_isSome m p x _ h)

theorem foldMPass_prefix_lookup (g : DependencyGraph) (rev : String → List String)
    (l1 l2 : List String) (m : List (String × Int)) (p : String) (hp : p ∉ l2) :
    (foldMPass g rev (l1 ++ l2) m).lookup p = (foldMPass g rev l1 m).lookup p := by
  rw [foldMPass_append]
  exact foldMPass_lookup_not_mem g rev l2 _ p hp

theorem foldMPass_lookup_split (g : DependencyGraph) (rev : String → List String)
    (l1 l2 : List String) (q : String) (h2 : q ∉ l2) (m : List (String × Int)) :
    (foldMPass g rev (l1 ++ q :: l2) m).lookup q
      = some (calculateOptimalLayer g q (foldMPass g rev l1 m) rev) := by
  rw [foldMPass_append]
  show (foldMPass g rev l2 (setL (foldMPass g rev l1 m) q
    (calculateOptimalLayer g q (foldMPass g rev l1 m) rev))).lookup q = _
  rw [foldMPass_lookup_not_mem g rev l2 _ q h2, setL_lookup_self]

theorem pass_fold_main (g : DependencyGraph) (rev : String → List String) :
    ∀ (ks : List String) (m : List (String × Int)) (b : Bool),
      (∀ x ∈ ks, (m.lookup x).isSome = true) →
      ∃ b2 : Bool, (ks.foldl (fun acc pkgPath =>
        let newLayer := calculateOptimalLayer g pkgPath acc.1 rev
        if (acc.1.lookup pkgPath).getD 0 ≠ newLayer then (setL acc.1 pkgPath newLayer, true)
        else acc) (m, b))
      = (foldMPass g rev ks m, b2)
      ∧ (b2 = false → foldMPass g rev ks m = m ∧ b = false) := by
  intro ks
  induction ks with
  | nil => intro m b _; exact ⟨b, rfl, fun hb => ⟨rfl, hb⟩⟩
  | cons p ks ih =>
    intro m b h
    have hsome := h p (List.mem_cons_self p ks)
    obtain ⟨w, hw⟩ := Option.isSome_iff_exists.mp hsome
    rw [List.foldl_cons]
    by_cases hc : (m.lookup p).getD 0 ≠ calculateOptimalLayer g p m rev
    · obtain ⟨b2, heq, himp⟩ := ih (setL m p (calculateOptimalLayer g p m rev)) true
        (fun x hx => setL_isSome m p x _ (h x (List.mem_cons_of_mem p hx)))
      refine ⟨b2, ?_, ?_⟩
      · show List.foldl _ (if (m.lookup p).getD 0 ≠ calculateOptimalLayer g p m rev
          then (setL m p (calculateOptimalLayer g p m rev), true) else (m, b)) ks = _
        rw [if_pos hc]
        exact heq
      · intro hb2
        exact absurd (himp hb2).2 (by simp)
    · have hcv : calculateOptimalLayer g p m rev = w := by
        push_neg at hc
        rw [hw] at hc
        exact hc.symm
      have hnoop : setL m p (calculateOptimalLayer g p m rev) = m := by
        rw [hcv]
        exact setL_noop m p w hw
      obtain ⟨b2, heq, himp⟩ := ih m b (fun x hx => h x (List.mem_cons_of_mem p hx))
      have hfold : foldMPass g rev (p :: ks) m = foldMPass g rev ks m := by
        show foldMPass g rev ks (setL m p (calculateOptimalLayer g p m rev)) = _
        rw [hnoop]
      refine ⟨b2, ?_, ?_⟩
      · show List.foldl _ (if (m.lookup p).getD 0 ≠ calculateOptimalLayer g p m rev
          then (setL m p (calculateOptimalLayer g p m rev), true) else (m, b)) ks = _
        rw [if_neg hc, hfold]
        exact heq
      · intro hb2
        rw [hfold]
        exact himp hb2

theorem iterate_map_eq (g : DependencyGraph) (rev : String → List String)
    (m : List (String × Int)) (h : ∀ x ∈ theKs g, (m.lookup x).isSome = true) :
    (iterateLayerCalculation g m rev).1 = foldMPass g rev (theKs g) m := by
  obtain ⟨b2, hb2, _⟩ := pass_fold_main g rev (theKs g) m false h
  show ((theKs g).foldl _ (m, false)).1 = _
  rw [hb2]

theorem iterate_unchanged (g : DependencyGraph) (rev : String → List String)
    (m : List (String × Int)) (h : ∀ x ∈ theKs g, (m.lookup x).isSome = true)
    (hflag : (iterateLayerCalculation g m rev).2 = false) :
    foldMPass g rev (theKs g) m = m := by
  obtain ⟨b2, hb2, himp⟩ := pass_fold_main g rev (theKs g) m false h
  have hflag2 : ((theKs g).foldl (fun acc pkgPath =>
      let newLayer := calculateOptimalLayer g pkgPath acc.1 rev
      if (acc.1.lookup pkgPath).getD 0 ≠ newLayer then (setL acc.1 pkgPath newLayer, true)
      else acc) (m, false)).2 = false := hflag
  rw [hb2] at hflag2
  exact (himp hflag2).1

theorem iterPass_add (g : DependencyGraph) (rev : String → List String)
    (ks : List String) : ∀ (a b : Nat) (m : List (String × Int)),
      iterPass g rev ks a (iterPass g rev ks b m) = iterPass g rev ks (a + b) m := by
  intro a
  induction a with
  | zero =>
    intro b m
    rw [Nat.zero_add]
    rfl
  | succ a ih =>
    intro b m
    show foldMPass g rev ks (iterPass g rev ks a (iterPass g rev ks b m)) = _
    rw [ih b m, Nat.succ_add]
    rfl

theorem iterPass_stationary (g : DependencyGraph) (rev : String → List String)
    (ks : List String) (m : List (String × Int)) (h : foldMPass g rev ks m = m) :
    ∀ i, iterPass g rev ks i m = m := by
  intro i
  induction i with
  | zero => rfl
  | succ i ih =>
    show foldMPass g rev ks (iterPass g rev ks i m) = m
    rw [ih, h]

theorem iterPass_isSome (g : DependencyGraph) (rev : String → List String)
    (ks : List String) : ∀ (n : Nat) (m : List (String × Int)) (x : String),
      (m.lookup x).isSome = true → ((iterPass g rev ks n m).lookup x).isSome = true := by
  intro n
  induction n with
  | zero => intro m x h; exact h
  | succ n ih =>
    intro m x h
    show ((foldMPass g rev ks (iterPass g rev ks n m)).lookup x).isSome = true
    exact foldMPass_isSome g rev ks _ x (ih m x h)

theorem initLayerMap_keys (g : DependencyGraph) :
    (initLayerMap g).map Prod.fst = keysOf g := by
  unfold initLayerMap keysOf
  rw [List.map_map]
  rfl

theorem init_dom (g : DependencyGraph) :
    ∀ x ∈ theKs g, ((initLayerMap g).lookup x).isSome = true := by
  intro x hx
  rw [lookup_isSome_iff, initLayerMap_keys]
  exact (theKs_mem g x).mp hx

/-! ## C2: properties of `calculateOptimalLayer` -/

theorem foldl_max_ge_init : ∀ (l : List Int) (a : Int), a ≤ l.foldl max a := by
  intro l
  induction l with
  | nil => intro a; exact le_refl a
  | cons x l ih =>
    intro a
    rw [List.foldl_cons]
    exact le_trans (le_max_left a x) (ih (max a x))

theorem foldl_max_ge_mem : ∀ (l : List Int) (a x : Int), x ∈ l → x ≤ l.foldl max a := by
  intro l
  induction l with
  | nil => intro a x h; simp at h
  | cons y l ih =>
    intro a x h
    rw [List.foldl_cons]
    rcases List.mem_cons.mp h with h1 | h1
    · rw [h1]
      exact le_trans (le_max_right a y) (foldl_max_ge_init l (max a y))
    · exact ih _ x h1

theorem calcOptimal_nonneg (g : DependencyGraph) (p : String)
    (m : List (String × Int)) (rev : String → List String) :
    0 ≤ calculateOptimalLayer g p m rev := by
  simp only [calculateOptimalLayer]
  by_cases h1 : ((rev p).filter (fun d => (g.packages.lookup d).isSome) ≠ [])
      ∧ ((rev p).filter (fun d => (g.packages.lookup d).isSome)).filterMap (fun d =>
        match m.lookup d with
        | some dl => if dl ≥ 0 then some dl else none
        | none => none) ≠ []
  · rw [if_pos h1]
    have := foldl_max_ge_init (((rev p).filter
      (fun d => (g.packages.lookup d).isSome)).filterMap
      (fun d => match m.lookup d with
        | some dl => if dl ≥ 0 then some dl else none
        | none => none)) (-1)
    omega
  · rw [if_neg h1]
    by_cases h2 : (rev p).filter (fun d => (g.packages.lookup d).isSome) ≠ []
    · rw [if_pos h2]
      cases hq : m.lookup p with
      | none => exact Int.le_of_lt Int.zero_lt_one
      | some cur =>
        dsimp only
        by_cases hcur : cur ≥ 0
        · rw [if_pos hcur]
          exact hcur
        · rw [if_neg hcur]
          exact Int.le_of_lt Int.zero_lt_one
    · rw [if_neg h2]

theorem filterMap_congr_mem {α β : Type} (f f2 : α → Option β) :
    ∀ l : List α, (∀ a ∈ l, f a = f2 a) → l.filterMap f = l.filterMap f2 := by
  intro l
  induction l with
  | nil => intro _; rfl
  | cons x l ih =>
    intro h
    rw [List.filterMap_cons, List.filterMap_cons, h x (List.mem_cons_self x l),
      ih (fun a ha => h a (List.mem_cons_of_mem x ha))]

theorem calcOptimal_ge (g : DependencyGraph) (q : String) (m : List (String × Int))
    (rev : String → List String) (p : String) (hp : p ∈ rev q)
    (hpk : (g.packages.lookup p).isSome = true) (w : Int)
    (hw : m.lookup p = some w) (hw0 : 0 ≤ w) :
    w + 1 ≤ calculateOptimalLayer g q m rev := by
  simp only [calculateOptimalLayer]
  have hpd : p ∈ (rev q).filter (fun d => (g.packages.lookup d).isSome) :=
    List.mem_filter.mpr ⟨hp, hpk⟩
  have hwc : w ∈ ((rev q).filter (fun d => (g.packages.lookup d).isSome)).filterMap
      (fun d => match m.lookup d with
        | some dl => if dl ≥ 0 then some dl else none
        | none => none) := by
    rw [List.mem_filterMap]
    exact ⟨p, hpd, by rw [hw]; dsimp only; rw [if_pos hw0]⟩
  rw [if_pos ⟨List.ne_nil_of_mem hpd, List.ne_nil_of_mem hwc⟩]
  have := foldl_max_ge_mem _ (-1) w hwc
  omega

theorem calcOptimal_congr (g : DependencyGraph) (q : String)
    (m1 m2 : List (String × Int)) (rev : String → List String)
    (heq : ∀ p ∈ rev q, (g.packages.lookup p).isSome = true → m1.lookup p = m2.lookup p)
    (hval : ∀ p ∈ rev q, (g.packages.lookup p).isSome = true →
      ∃ w, 0 ≤ w ∧ m1.lookup p = some w) :
    calculateOptimalLayer g q m1 rev = calculateOptimalLayer g q m2 rev := by
  simp only [calculateOptimalLayer]
  have hcs : ((rev q).filter (fun d => (g.packages.lookup d).isSome)).filterMap
      (fun d => match m1.lookup d with
        | some dl => if dl ≥ 0 then some dl else none
        | none => none)
      = ((rev q).filter (fun d => (g.packages.lookup d).isSome)).filterMap
      (fun d => match m2.lookup d with
        | some dl => if dl ≥ 0 then some dl else none
        | none => none) := by
    apply filterMap_congr_mem
    intro a ha
    rw [List.mem_filter] at ha
    rw [heq a ha.1 ha.2]
  rw [hcs]
  by_cases hds : (rev q).filter (fun d => (g.packages.lookup d).isSome) = []
  · rw [hds]
    simp
  · obtain ⟨pd, hpd⟩ := List.exists_mem_of_ne_nil _ hds
    have hpd2 := List.mem_filter.mp hpd
    obtain ⟨w, hw0, hw⟩ := hval pd hpd2.1 hpd2.2
    have hw2 : m2.lookup pd = some w := by
      rw [← heq pd hpd2.1 hpd2.2]
      exact hw
    have hwc : w ∈ ((rev q).filter (fun d => (g.packages.lookup d).isSome)).filterMap
        (fun d => match m2.lookup d with
          | some dl => if dl ≥ 0 then some dl else none
          | none => none) := by
      rw [List.mem_filterMap]
      exact ⟨pd, hpd, by rw [hw2]; dsimp only; rw [if_pos hw0]⟩
    rw [if_pos ⟨hds, List.ne_nil_of_mem hwc⟩, if_pos ⟨hds, List.ne_nil_of_mem hwc⟩]

/-! ## C2: the recorded dependents are exactly the unmarked edges -/

theorem mem_split_nodup {l : List String} {q : String} (hq : q ∈ l) (hnd : l.Nodup) :
    ∃ l1 l2, l = l1 ++ q :: l2 ∧ q ∉ l1 ∧ q ∉ l2 ∧ ∀ a ∈ l1, a ∉ l2 := by
  obtain ⟨l1, l2, rfl⟩ := List.append_of_mem hq
  rw [List.nodup_append] at hnd
  refine ⟨l1, l2, rfl, ?_, ?_, ?_⟩
  · intro h
    exact hnd.2.2 h (List.mem_cons_self q l2)
  · exact (List.nodup_cons.mp hnd.2.1).1
  · intro a ha ha2
    exact hnd.2.2 ha (List.mem_cons_of_mem q ha2)

theorem mem_theRev_elim (g : DependencyGraph) (hnd : (keysOf g).Nodup)
    (q p : String) (hp : p ∈ theRev g q) :
    edgeB g p q = true ∧ (p, q) ∉ detectCircularDependencies g := by
  unfold theRev buildReverseDependencyMap at hp
  rw [List.mem_map] at hp
  obtain ⟨pr, hpr, hfst⟩ := hp
  rw [List.mem_filter] at hpr
  obtain ⟨hmem, hcond⟩ := hpr
  simp only [decide_eq_true_eq] at hcond
  obtain ⟨hdep, hqs, hnc⟩ := hcond
  have hlk : g.packages.lookup p = some pr.2 := by
    apply lookup_of_mem_nodup g.packages hnd p pr.2
    rw [← hfst]
    exact hmem
  constructor
  · unfold edgeB
    rw [hlk, Bool.and_eq_true]
    exact ⟨decide_eq_true hdep, hqs⟩
  · rw [← hfst]
    exact hnc

theorem mem_theRev_intro (g : DependencyGraph) (q p : String)
    (he : edgeB g p q = true) (hnc : (p, q) ∉ detectCircularDependencies g) :
    p ∈ theRev g q := by
  unfold edgeB at he
  cases hlk : g.packages.lookup p with
  | none => rw [hlk] at he; simp at he
  | some info =>
    rw [hlk, Bool.and_eq_true] at he
    have hdep : q ∈ info.dependencies := by simpa using he.1
    unfold theRev buildReverseDependencyMap
    rw [List.mem_map]
    refine ⟨(p, info), ?_, rfl⟩
    rw [List.mem_filter]
    refine ⟨lookup_mem g.packages p info hlk, ?_⟩
    simp only [decide_eq_true_eq]
    exact ⟨hdep, he.2, hnc⟩

theorem muF_lt (F : List String) (u v : String)
    (hu : u ∈ F) (hlt : posIn F v < posIn F u) : muF F u < muF F v := by
  unfold muF
  have h1 := posIn_lt_length F u hu
  omega

theorem F_length_eq (g : DependencyGraph) (hnd : (keysOf g).Nodup)
    (F : List String) (hFnd : F.Nodup) (hFmem : ∀ k, k ∈ F ↔ k ∈ keysOf g) :
    F.length = g.packages.length := by
  have hperm : List.Perm F (keysOf g) := by
    rw [List.perm_ext_iff_of_nodup hFnd hnd]
    exact hFmem
  rw [hperm.length_eq]
  unfold keysOf
  rw [List.length_map]

/-! ## C2: stabilization of the layer passes along the finish order -/

/-- Each key's layer value is fixed from pass `muF F x + 2` on, is
nonnegative, and strictly dominates every recorded dependent's stable
value. -/
theorem layer_stabilize (g : DependencyGraph) (hnd : (keysOf g).Nodup)
    (F : List String) (hFmem : ∀ k, k ∈ F ↔ k ∈ keysOf g)
    (horder : ∀ u v, edgeB g u v = true →
      (u, v) ∈ detectCircularDependencies g ∨ posIn F v < posIn F u) :
    ∀ (n : Nat) (x : String), x ∈ keysOf g → muF F x = n →
      ∃ v : Int, 0 ≤ v
      ∧ (∀ i, n + 2 ≤ i →
          (iterPass g (theRev g) (theKs g) i (initLayerMap g)).lookup x = some v)
      ∧ ∀ p ∈ theRev g x, ∃ w : Int, 0 ≤ w
          ∧ (∀ i, muF F p + 2 ≤ i →
              (iterPass g (theRev g) (theKs g) i (initLayerMap g)).lookup p = some w)
          ∧ w + 1 ≤ v := by
  intro n
  induction n using Nat.strong_induction_on with
  | _ n ih =>
    intro x hx hmu
    have hxks : x ∈ theKs g := (theKs_mem g x).mpr hx
    obtain ⟨l1, l2, hsplit, hx1, hx2, hdisj⟩ := mem_split_nodup hxks (theKs_nodup g hnd)
    have hdeplt : ∀ p ∈ theRev g x, p ∈ keysOf g ∧ muF F p < n := by
      intro p hp
      obtain ⟨hedge, hnc⟩ := mem_theRev_elim g hnd x p hp
      have hpk : p ∈ keysOf g := by
        have hs : (g.packages.lookup p).isSome = true := by
          unfold edgeB at hedge
          cases hq : g.packages.lookup p with
          | none => rw [hq] at hedge; simp at hedge
          | some _ => rfl
        rw [lookup_isSome_iff] at hs
        exact hs
      rcases horder p x hedge with hmk | hlt
      · exact absurd hmk hnc
      · refine ⟨hpk, ?_⟩
        rw [← hmu]
        exact muF_lt F p x ((hFmem p).mpr hpk) hlt
    have hstabdep : ∀ p ∈ theRev g x, ∃ w : Int, 0 ≤ w
        ∧ (∀ i, muF F p + 2 ≤ i →
            (iterPass g (theRev g) (theKs g) i (initLayerMap g)).lookup p = some w) := by
      intro p hp
      obtain ⟨hpk, hplt⟩ := hdeplt p hp
      obtain ⟨w, hw0, hwst, -⟩ := ih (muF F p) hplt p hpk rfl
      exact ⟨w, hw0, hwst⟩
    have hmix : ∀ j, n + 1 ≤ j → ∀ p ∈ theRev g x, ∀ w : Int,
        (∀ i, muF F p + 2 ≤ i →
          (iterPass g (theRev g) (theKs g) i (initLayerMap g)).lookup p = some w) →
        (foldMPass g (theRev g) l1
          (iterPass g (theRev g) (theKs g) j (initLayerMap g))).lookup p = some w := by
      intro j hj p hp w hwst
      obtain ⟨hpk, hplt⟩ := hdeplt p hp
      have hpks : p ∈ theKs g := (theKs_mem g p).mpr hpk
      have hpne : p ≠ x := by
        intro he
        rw [he, hmu] at hplt
        omega
      rw [hsplit] at hpks
      rcases List.mem_append.mp hpks with hpl | hpl
      · have hnot : p ∉ x :: l2 := by
          intro hmem2
          rcases List.mem_cons.mp hmem2 with h | h
          · exact hpne h
          · exact hdisj p hpl h
        have heq1 : (foldMPass g (theRev g) (l1 ++ x :: l2)
            (iterPass g (theRev g) (theKs g) j (initLayerMap g))).lookup p
            = (foldMPass g (theRev g) l1
            (iterPass g (theRev g) (theKs g) j (initLayerMap g))).lookup p :=
          foldMPass_prefix_lookup g (theRev g) l1 (x :: l2) _ p hnot
        rw [← heq1, ← hsplit]
        have heq2 : foldMPass g (theRev g) (theKs g)
            (iterPass g (theRev g) (theKs g) j (initLayerMap g))
            = iterPass g (theRev g) (theKs g) (j + 1) (initLayerMap g) := rfl
        rw [heq2]
        apply hwst
        omega
      · have hpl2 : p ∈ l2 := by
          rcases List.mem_cons.mp hpl with h | h
          · exact absurd h hpne
          · exact h
        have hnl1 : p ∉ l1 := fun h => hdisj p h hpl2
        rw [foldMPass_lookup_not_mem g (theRev g) l1 _ p hnl1]
        apply hwst
        omega
    have hval : ∀ j : Nat, (iterPass g (theRev g) (theKs g) (j + 1)
        (initLayerMap g)).lookup x
        = some (calculateOptimalLayer g x
          (foldMPass g (theRev g) l1
            (iterPass g (theRev g) (theKs g) j (initLayerMap g))) (theRev g)) := by
      intro j
      show (foldMPass g (theRev g) (theKs g)
        (iterPass g (theRev g) (theKs g) j (initLayerMap g))).lookup x = _
      rw [hsplit]
      exact foldMPass_lookup_split g (theRev g) l1 l2 x hx2 _
    have hcongr : ∀ j, n + 1 ≤ j →
        calculateOptimalLayer g x (foldMPass g (theRev g) l1
          (iterPass g (theRev g) (theKs g) j (initLayerMap g))) (theRev g)
        = calculateOptimalLayer g x (foldMPass g (theRev g) l1
          (iterPass g (theRev g) (theKs g) (n + 1) (initLayerMap g))) (theRev g) := by
      intro j hj
      apply calcOptimal_congr
      · intro p hp hpk2
        obtain ⟨w, hw0, hwst⟩ := hstabdep p hp
        rw [hmix j hj p hp w hwst, hmix (n + 1) (le_refl _) p hp w hwst]
      · intro p hp hpk2
        obtain ⟨w, hw0, hwst⟩ := hstabdep p hp
        exact ⟨w, hw0, hmix j hj p hp w hwst⟩
    refine ⟨calculateOptimalLayer g x (foldMPass g (theRev g) l1
        (iterPass g (theRev g) (theKs g) (n + 1) (initLayerMap g))) (theRev g),
      calcOptimal_nonneg g x _ (theRev g), ?_, ?_⟩
    · intro i hi
      obtain ⟨j, rfl⟩ : ∃ j, i = j + 1 := ⟨i - 1, by omega⟩
      rw [hval j, hcongr j (by omega)]
    · intro p hp
      obtain ⟨w, hw0, hwst⟩ := hstabdep p hp
      refine ⟨w, hw0, hwst, ?_⟩
      refine calcOptimal_ge g x _ (theRev g) p hp ?_ w ?_ hw0
      · rw [lookup_isSome_iff]
        exact (hdeplt p hp).1
      · exact hmix (n + 1) (le_refl _) p hp w hwst

/-! ## C2: the bounded early-stopping loop reaches the stable values -/

theorem calcLayersLoop_out (g : DependencyGraph) :
    ∀ (fuel : Nat) (m : List (String × Int)),
      (∀ x ∈ theKs g, (m.lookup x).isSome = true) →
      ∃ j, j ≤ fuel ∧ calcLayersLoop g (theRev g) fuel m
          = iterPass g (theRev g) (theKs g) j m
        ∧ (j = fuel ∨ foldMPass g (theRev g) (theKs g)
            (iterPass g (theRev g) (theKs g) j m)
            = iterPass g (theRev g) (theKs g) j m) := by
  intro fuel
  induction fuel with
  | zero =>
    intro m _
    exact ⟨0, le_refl 0, rfl, Or.inl rfl⟩
  | succ fuel ihf =>
    intro m hdom
    by_cases hc : (iterateLayerCalculation g m (theRev g)).2 = true
    · have hmapeq : (iterateLayerCalculation g m (theRev g)).1
          = foldMPass g (theRev g) (theKs g) m := iterate_map_eq g (theRev g) m hdom
      have hdom2 : ∀ x ∈ theKs g,
          ((foldMPass g (theRev g) (theKs g) m).lookup x).isSome = true :=
        fun x hx => foldMPass_isSome g (theRev g) (theKs g) m x (hdom x hx)
      obtain ⟨j, hjle, heq, hj2⟩ := ihf (foldMPass g (theRev g) (theKs g) m) hdom2
      have hshift : iterPass g (theRev g) (theKs g) j (foldMPass g (theRev g) (theKs g) m)
          = iterPass g (theRev g) (theKs g) (j + 1) m := by
        show iterPass g (theRev g) (theKs g) j
          (iterPass g (theRev g) (theKs g) 1 m) = _
        rw [iterPass_add]
      refine ⟨j + 1, by omega, ?_, ?_⟩
      · show (if (iterateLayerCalculation g m (theRev g)).2 = true then
            calcLayersLoop g (theRev g) fuel (iterateLayerCalculation g m (theRev g)).1
          else (iterateLayerCalculation g m (theRev g)).1) = _
        rw [if_pos hc, hmapeq, heq]
        exact hshift
      · rcases hj2 with h | h
        · exact Or.inl (by omega)
        · right
          rw [← hshift]
          exact h
    · have hfl : (iterateLayerCalculation g m (theRev g)).2 = false := by
        cases hq : (iterateLayerCalculation g m (theRev g)).2
        · rfl
        · exact absurd hq hc
      have hnoop : foldMPass g (theRev g) (theKs g) m = m :=
        iterate_unchanged g (theRev g) m hdom hfl
      refine ⟨0, by omega, ?_, Or.inr ?_⟩
      · show (if (iterateLayerCalculation g m (theRev g)).2 = true then
            calcLayersLoop g (theRev g) fuel (iterateLayerCalculation g m (theRev g)).1
          else (iterateLayerCalculation g m (theRev g)).1) = _
        rw [if_neg hc, iterate_map_eq g (theRev g) m hdom, hnoop]
        rfl
      · show foldMPass g (theRev g) (theKs g) m = m
        exact hnoop

theorem layerAssignment_of_stable (g : DependencyGraph) (x : String) (v : Int) (b : Nat)
    (hb : b ≤ g.packages.length + maxIterationsPadding)
    (hstab : ∀ i, b ≤ i →
      (iterPass g (theRev g) (theKs g) i (initLayerMap g)).lookup x = some v) :
    (layerAssignment g).lookup x = some v := by
  obtain ⟨j, hjle, heq, hj2⟩ := calcLayersLoop_out g
    (g.packages.length + maxIterationsPadding) (initLayerMap g) (init_dom g)
  have hla : layerAssignment g
      = iterPass g (theRev g) (theKs g) j (initLayerMap g) := heq
  rcases hj2 with hjf | hnoop
  · rw [hla]
    apply hstab
    omega
  · by_cases hbj : b ≤ j
    · rw [hla]
      exact hstab j hbj
    · have hstat := iterPass_stationary g (theRev g) (theKs g) _ hnoop
      have hbeq : iterPass g (theRev g) (theKs g) b (initLayerMap g)
          = iterPass g (theRev g) (theKs g) j (initLayerMap g) := by
        have h2 := hstat (b - j)
        rw [iterPass_add] at h2
        rw [show b - j + j = b from by omega] at h2
        exact h2
      rw [hla, ← hbeq]
      exact hstab b (le_refl b)

/-! ## Claim C2 -/

theorem mem_zip_fst : ∀ (l1 l2 : List String) (b : String),
    b ∈ l1 → l1.length ≤ l2.length → ∃ nb, (b, nb) ∈ l1.zip l2 := by
  intro l1
  induction l1 with
  | nil => intro l2 b h _; simp at h
  | cons a l1 ih =>
    intro l2 b h hlen
    cases l2 with
    | nil => simp at hlen
    | cons y l2 =>
      rcases List.mem_cons.mp h with h1 | h1
      · refine ⟨y, ?_⟩
        rw [h1, List.zip_cons_cons]
        exact List.mem_cons_self _ _
      · obtain ⟨nb, hnb⟩ := ih l2 b h1 (by simpa using hlen)
        rw [List.zip_cons_cons]
        exact ⟨nb, List.mem_cons_of_mem _ hnb⟩

theorem cycle_elem_out (g : DependencyGraph) (c : List String)
    (hc : isCycleListB g c = true) (b : String) (hb : b ∈ c) :
    ∃ nb, edgeB g b nb = true := by
  unfold isCycleListB at hc
  rw [Bool.and_eq_true] at hc
  obtain ⟨-, hall⟩ := hc
  cases c with
  | nil => simp at hb
  | cons x xs =>
    obtain ⟨nb, hnb⟩ := mem_zip_fst (x :: xs) (xs ++ [x]) b hb (by simp)
    refine ⟨nb, ?_⟩
    have hp := List.all_eq_true.mp hall (b, nb) hnb
    simpa using hp

theorem wrapPairs_snd_mem {c : List String} {a b : String}
    (h : (a, b) ∈ wrapPairs c) : b ∈ c := by
  cases c with
  | nil => simp [wrapPairs] at h
  | cons x xs =>
    unfold wrapPairs at h
    have h2 := List.of_mem_zip h
    rcases List.mem_append.mp h2.2 with h1 | h1
    · exact List.mem_cons_of_mem x h1
    · rw [List.mem_singleton.mp h1]
      exact List.mem_cons_self x xs

theorem chain2_not_on_cycle :
    ¬ onCycleEdge ⟨"m/a", [("m/a", ⟨"a", "m/a", ["m/b"], 1⟩),
      ("m/b", ⟨"b", "m/b", [], 1⟩)], [], "m"⟩ "m/a" "m/b" := by
  rintro ⟨c, hc, hm⟩
  have hqc : "m/b" ∈ c := wrapPairs_snd_mem hm
  obtain ⟨nb, hnb⟩ := cycle_elem_out _ c hc "m/b" hqc
  unfold edgeB at hnb
  rw [show List.lookup "m/b" [("m/a", (⟨"a", "m/a", ["m/b"], 1⟩ : PackageInfo)),
    ("m/b", ⟨"b", "m/b", [], 1⟩)] = some ⟨"b", "m/b", [], 1⟩ from rfl] at hnb
  simp at hnb

/-- Claim C2, counterexample: in the two-package chain where `m/a` imports
`m/b` (an acyclic graph), the computed layers are layer(m/a) = 0 and
layer(m/b) = 1, so for the non-circular edge (m/a, m/b) the claimed
inequality layer(m/a) > layer(m/b) is false — the actual order is the
reverse. -/
theorem C2_counterexample :
    edgeB ⟨"m/a", [("m/a", ⟨"a", "m/a", ["m/b"], 1⟩),
        ("m/b", ⟨"b", "m/b", [], 1⟩)], [], "m"⟩ "m/a" "m/b" = true
    ∧ ¬ onCycleEdge ⟨"m/a", [("m/a", ⟨"a", "m/a", ["m/b"], 1⟩),
        ("m/b", ⟨"b", "m/b", [], 1⟩)], [], "m"⟩ "m/a" "m/b"
    ∧ (layerAssignment ⟨"m/a", [("m/a", ⟨"a", "m/a", ["m/b"], 1⟩),
        ("m/b", ⟨"b", "m/b", [], 1⟩)], [], "m"⟩).lookup "m/a" = some 0
    ∧ (layerAssignment ⟨"m/a", [("m/a", ⟨"a", "m/a", ["m/b"], 1⟩),
        ("m/b", ⟨"b", "m/b", [], 1⟩)], [], "m"⟩).lookup "m/b" = some 1
    ∧ ¬ ((0 : Int) > 1) :=
  ⟨by decide, chain2_not_on_cycle, by decide, by decide, by decide⟩

/-- Claim C2 (amended): for every graph with distinct package keys and every
pair (p, q) of keys such that p lists q in its dependencies and the edge
(p, q) is not part of any cycle, the final layer map assigns layers to both
with layer(q) > layer(p): a package is placed strictly above every package
that depends on it, so the claimed direction layer(p) > layer(q) is exactly
reversed. -/
theorem C2_monotone_layering (g : DependencyGraph) (hnd : (keysOf g).Nodup)
    (p q : String) (hedge : edgeB g p q = true) (hnc : ¬ onCycleEdge g p q) :
    ∃ lp lq : Int, (layerAssignment g).lookup p = some lp
      ∧ (layerAssignment g).lookup q = some lq ∧ lp < lq := by
  obtain ⟨F, hFnd, hFmem, horder⟩ := detect_order g
  have hnm : (p, q) ∉ detectCircularDependencies g :=
    fun h => hnc (detect_sound g p q h)
  have hprev : p ∈ theRev g q := mem_theRev_intro g q p hedge hnm
  have hkeys : p ∈ keysOf g ∧ q ∈ keysOf g := by
    unfold edgeB at hedge
    cases hlk : g.packages.lookup p with
    | none => rw [hlk] at hedge; simp at hedge
    | some info =>
      rw [hlk, Bool.and_eq_true] at hedge
      constructor
      · have hs : (g.packages.lookup p).isSome = true := by rw [hlk]; rfl
        rw [lookup_isSome_iff] at hs
        exact hs
      · have hs := hedge.2
        rw [lookup_isSome_iff] at hs
        exact hs
  obtain ⟨v, hv0, hvstab, hdep⟩ := layer_stabilize g hnd F hFmem horder
    (muF F q) q hkeys.2 rfl
  obtain ⟨w, hw0, hwstab, hlt⟩ := hdep p hprev
  have hFlen : F.length = g.packages.length := F_length_eq g hnd F hFnd hFmem
  have hqB : muF F q + 2 ≤ g.packages.length + maxIterationsPadding := by
    have hqF : q ∈ F := (hFmem q).mpr hkeys.2
    have hpos := posIn_lt_length F q hqF
    simp only [maxIterationsPadding]
    unfold muF
    omega
  have hpB : muF F p + 2 ≤ g.packages.length + maxIterationsPadding := by
    have hpF : p ∈ F := (hFmem p).mpr hkeys.1
    have hpos := posIn_lt_length F p hpF
    simp only [maxIterationsPadding]
    unfold muF
    omega
  exact ⟨w, v, layerAssignment_of_stable g p w (muF F p + 2) hpB hwstab,
    layerAssignment_of_stable g q v (muF F q + 2) hqB hvstab, by omega⟩

/-- Witness for C2 at the two-package chain graph. -/
theorem C2_witness :
    ∃ lp lq : Int, (layerAssignment ⟨"m/a", [("m/a", ⟨"a", "m/a", ["m/b"], 1⟩),
        ("m/b", ⟨"b", "m/b", [], 1⟩)], [], "m"⟩).lookup "m/a" = some lp
      ∧ (layerAssignment ⟨"m/a", [("m/a", ⟨"a", "m/a", ["m/b"], 1⟩),
        ("m/b", ⟨"b", "m/b", [], 1⟩)], [], "m"⟩).lookup "m/b" = some lq
      ∧ lp < lq :=
  C2_monotone_layering ⟨"m/a", [("m/a", ⟨"a", "m/a", ["m/b"], 1⟩),
      ("m/b", ⟨"b", "m/b", [], 1⟩)], [], "m"⟩ (by decide) "m/a" "m/b" (by decide)
    chain2_not_on_cycle

end PkgAnalyzer
